import Mathlib

/-!
# jrpcd: request pipeline of the caching JSON-RPC proxy

A shallow embedding of `request.go`, `response.go`, `route.go` and the
dispatcher of `jrpc.go` (`handleRequest`, `forwardRequest`, `Get`, `SetMany`).

Conventions of the embedding

* A decoded JSON document (`interface{}` after `Decode` with `UseNumber`) is a
  value of `Json`; numbers are kept as their lexical token (`json.Number`).
* A Go `map[string]interface{}` is an association list; Go maps have pairwise
  distinct keys, which is the predicate `Json.WF` / `NodupKeys`.  The order of
  the list stands for the (unspecified) iteration order of the map.
* `fjson.Marshal` / `Unmarshal` are not byte-level: the marshalled form of a
  value is the document itself.  The one place where the Go encoder does not
  emit the document of the same shape, a nil slice, is `marshalResponses`.
* Code outside the repository is a parameter: `lower` is the rune mapping
  `unicode.ToLower` behind `strings.ToLower`, `wm` is `wildcard.Match`,
  `client` is the outcome of `c.Client.Do` and of reading the reply, `sched`
  is the order in which the forwarding goroutines append their responses.
  Runs on concrete requests take `Char.toLower` for `lower`; the requests are
  ASCII, where it agrees with `unicode.ToLower`.
* A Go runtime panic is an explicit outcome (`none`, or `Reply.crash`).
-/

namespace Jrpcd

/-! ## JSON values -/

/-- The dynamic values produced by the JSON decoder with `UseNumber`:
`nil`, `bool`, `json.Number`, `string`, `[]interface{}`, `map[string]interface{}`. -/
inductive Json where
  | null : Json
  | bool (b : Bool) : Json
  | num (tok : String) : Json
  | str (s : String) : Json
  | arr (xs : List Json) : Json
  | obj (fs : List (String × Json)) : Json

instance : Inhabited Json := ⟨Json.null⟩

mutual
/-- Equality of two interface values, as Go's `==` on the dynamic type and value. -/
def Json.beq : Json → Json → Bool
  | .null, .null => true
  | .bool a, .bool b => a == b
  | .num a, .num b => a == b
  | .str a, .str b => a == b
  | .arr xs, .arr ys => Json.beqList xs ys
  | .obj fs, .obj gs => Json.beqFields fs gs
  | _, _ => false
/-- Pointwise `Json.beq` on slices. -/
def Json.beqList : List Json → List Json → Bool
  | [], [] => true
  | x :: xs, y :: ys => Json.beq x y && Json.beqList xs ys
  | _, _ => false
/-- Pointwise `Json.beq` on field lists. -/
def Json.beqFields : List (String × Json) → List (String × Json) → Bool
  | [], [] => true
  | (k, v) :: fs, (l, w) :: gs => k == l && Json.beq v w && Json.beqFields fs gs
  | _, _ => false
end

instance : BEq Json := ⟨Json.beq⟩

/-- Whether a value may be used as the key of a `map[interface{}]string`:
slices and maps are unhashable, using one as a key panics at run time. -/
def Json.hashable : Json → Bool
  | .arr _ => false
  | .obj _ => false
  | _ => true

/-- Keys of an association list are pairwise distinct (a Go map). -/
def NodupKeys {α : Type} (fs : List (String × α)) : Prop := (fs.map Prod.fst).Nodup

mutual
/-- Every mapping inside the value has pairwise distinct keys. -/
def Json.WF : Json → Prop
  | .arr xs => Json.WFList xs
  | .obj fs => NodupKeys fs ∧ Json.WFFields fs
  | _ => True
/-- All elements of a slice are well formed. -/
def Json.WFList : List Json → Prop
  | [] => True
  | x :: xs => Json.WF x ∧ Json.WFList xs
/-- All values of a field list are well formed. -/
def Json.WFFields : List (String × Json) → Prop
  | [] => True
  | (_, v) :: fs => Json.WF v ∧ Json.WFFields fs
end

mutual
/-- Two values are equal up to the order of keys in their mappings, at any
depth: scalars are equal, slices are equal position by position, and two
mappings have the same number of keys and every field of the first has a field
of the second with the same key and a value equal up to key order. -/
def Json.KeyEq : Json → Json → Prop
  | .null, b => b = .null
  | .bool x, b => b = .bool x
  | .num t, b => b = .num t
  | .str s, b => b = .str s
  | .arr xs, b => ∃ ys, b = .arr ys ∧ Json.KeyEqList xs ys
  | .obj fs, b => ∃ gs, b = .obj gs ∧ fs.length = gs.length ∧ Json.KeyEqFields fs gs
/-- Position by position `Json.KeyEq`. -/
def Json.KeyEqList : List Json → List Json → Prop
  | [], ys => ys = []
  | x :: xs, ys => ∃ y ys', ys = y :: ys' ∧ Json.KeyEq x y ∧ Json.KeyEqList xs ys'
/-- Every field of the first list has a counterpart in the second. -/
def Json.KeyEqFields : List (String × Json) → List (String × Json) → Prop
  | [], _ => True
  | (k, v) :: fs, gs => (∃ w, (k, w) ∈ gs ∧ Json.KeyEq v w) ∧ Json.KeyEqFields fs gs
end

/-! ## Strings -/

/-- The function `strings.ToLower`: the rune mapping `lower` (`unicode.ToLower`)
applied to every rune. -/
def toLower (lower : Char → Char) (s : String) : String := ⟨s.data.map lower⟩

/-- The function `strings.HasPrefix`. -/
def hasPrefix (s pre : String) : Bool := pre.data.isPrefixOf s.data

/-- Go's `<` on strings (bytewise, which on UTF-8 is the order of code points). -/
def strLt : List Char → List Char → Bool
  | [], [] => false
  | [], _ :: _ => true
  | _ :: _, [] => false
  | a :: as, b :: bs =>
    if a.toNat < b.toNat then true
    else if b.toNat < a.toNat then false
    else strLt as bs

/-- Order of two printed map entries: by key, `a` not after `b`. -/
def keyLe (a b : String × String) : Prop := strLt b.1.data a.1.data = false

instance : DecidableRel keyLe := fun a b =>
  inferInstanceAs (Decidable (strLt b.1.data a.1.data = false))

/-- Strict order of two printed map entries by key. -/
def keyLt (a b : String × String) : Prop := strLt a.1.data b.1.data = true

/-- Elements separated by one space, as `fmt` prints the elements of a slice or map. -/
def joinSp : List String → String
  | [] => ""
  | [s] => s
  | s :: t :: r => s ++ " " ++ joinSp (t :: r)

/-- One printed map entry, `key:value`. -/
def fmtEntry (kv : String × String) : String := kv.1 ++ ":" ++ kv.2

mutual
/-- The verb `%v` of `fmt.Sprintf` on a decoded JSON value: a nil interface is
`<nil>`, a bool `true`/`false`, a `json.Number` its token (through `String()`),
a string its text unquoted, a slice `[e1 e2 ...]`, a map `map[k1:v1 k2:v2 ...]`
with the keys sorted by `fmt` (package `internal/fmtsort`).  The values of a map
are printed before the entries are sorted, which gives the same text. -/
def fmtV : Json → String
  | .null => "<nil>"
  | .bool b => if b then "true" else "false"
  | .num t => t
  | .str s => s
  | .arr xs => "[" ++ joinSp (fmtVs xs) ++ "]"
  | .obj fs => "map[" ++ joinSp (((fmtFields fs).insertionSort keyLe).map fmtEntry) ++ "]"
/-- The elements of a slice, each printed with `%v`. -/
def fmtVs : List Json → List String
  | [] => []
  | x :: xs => fmtV x :: fmtVs xs
/-- The fields of a map, each value printed with `%v`. -/
def fmtFields : List (String × Json) → List (String × String)
  | [] => []
  | (k, v) :: fs => (k, fmtV v) :: fmtFields fs
end

mutual
/-- The rendering `canonical` in the words of the specification's fingerprint
rule: mappings with keys in ascending order, arrays positionally, numbers as their
token, strings without quoting, and `null` as `null`.  Brackets and separators,
which the rule leaves open, are those of `fmtV`. -/
def specCanonical : Json → String
  | .null => "null"
  | .bool b => if b then "true" else "false"
  | .num t => t
  | .str s => s
  | .arr xs => "[" ++ joinSp (specCanonicals xs) ++ "]"
  | .obj fs =>
    "map[" ++ joinSp (((specCanonicalFields fs).insertionSort keyLe).map fmtEntry) ++ "]"
/-- The elements of an array, each rendered by `specCanonical`. -/
def specCanonicals : List Json → List String
  | [] => []
  | x :: xs => specCanonical x :: specCanonicals xs
/-- The fields of a mapping, each value rendered by `specCanonical`. -/
def specCanonicalFields : List (String × Json) → List (String × String)
  | [] => []
  | (k, v) :: fs => (k, specCanonical v) :: specCanonicalFields fs
end

/-- Order of two fields of a mapping: by key, `a` not after `b`. -/
def fieldLe (a b : String × Json) : Prop := strLt b.1.data a.1.data = false

instance : DecidableRel fieldLe := fun a b =>
  inferInstanceAs (Decidable (strLt b.1.data a.1.data = false))

/-- The verb `%T` of `fmt` on a decoded JSON value: the name of its dynamic type. -/
def fmtT : Json → String
  | .null => "<nil>"
  | .bool _ => "bool"
  | .num _ => "json.Number"
  | .str _ => "string"
  | .arr _ => "[]interface {}"
  | .obj _ => "map[string]interface {}"

/-! ## request.go -/

/-- Go type `RawRequest`, a `map[string]interface{}`. -/
abbrev RawRequest := List (String × Json)

/-- Go type `Response`, a `map[string]interface{}`. -/
abbrev Response := List (String × Json)

/-- Go struct `Request`.  The field `id` is never assigned by the program. -/
structure Request where
  raw : RawRequest
  id : Json
  method : String
  sig : String

/-- The expression `r["method"].(string)` with the `ok` result dropped: the
string under the key, or `""` when the key is absent or not a string. -/
def methodOf (r : RawRequest) : String :=
  match r.lookup "method" with
  | some (.str s) => s
  | _ => ""

/-- The expression `r["params"]`: the value under the key, or nil. -/
def paramsOf (r : RawRequest) : Json := (r.lookup "params").getD .null

/-- Function `NewRequest`. -/
def NewRequest (lower : Char → Char) (r : RawRequest) : Request :=
  let method := methodOf r
  let params := paramsOf r
  let sig := toLower lower (method ++ "(" ++ fmtV params ++ ")")
  { raw := r, id := .null, method := toLower lower method, sig := sig }

/-- Method `Request.Cachable`. -/
def Request.Cachable (r : Request) : Bool :=
  if r.method = "eth_getblockbynumber" then
    match r.raw.lookup "params" with
    | some (.arr [v0, _]) =>
      match v0 with
      | .str s => hasPrefix s "0x"
      | _ => false
    | _ => false
  else true

/-- Method `Requests.Raw`. -/
def Requests.Raw (rs : List Request) : List RawRequest := rs.map Request.raw

/-- The loop of `decodeRequests` over a decoded array: elements that are not
objects are skipped. -/
def requestsOfArray (lower : Char → Char) : List Json → List Request
  | [] => []
  | .obj raw :: rest => NewRequest lower raw :: requestsOfArray lower rest
  | _ :: rest => requestsOfArray lower rest

/-- Function `decodeRequests`, applied to the outcome `dec` of `jd.Decode` on
the body: the requests and the batch flag, or the error. -/
def decodeRequests (lower : Char → Char) (dec : Except String Json) :
    Except String (List Request × Bool) :=
  match dec with
  | .error e => .error e
  | .ok (.arr v) => .ok (requestsOfArray lower v, true)
  | .ok (.obj v) => .ok ([NewRequest lower v], false)
  | .ok v => .error ("Unsupported request object: " ++ fmtT v)

/-! ## response.go -/

/-- The loop of `decodeResponses` over a decoded array. -/
def responsesOfArray : List Json → List Response
  | [] => []
  | .obj raw :: rest => raw :: responsesOfArray rest
  | _ :: rest => responsesOfArray rest

/-- Function `decodeResponses`, applied to the outcome of `je.Decode` on the body. -/
def decodeResponses (dec : Except String Json) : Except String (List Response) :=
  match dec with
  | .error e => .error e
  | .ok (.arr v) => .ok (responsesOfArray v)
  | .ok (.obj v) => .ok [v]
  | .ok v => .error ("Unsupported response object: " ++ fmtT v)

/-! ## backend.go, route.go -/

/-- Go struct `Backend`. -/
structure Backend where
  Name : String
  URL : String

/-- Go struct `Route`.  `Methods` is a `map[string]bool` of which only the key
set is read (`none` is the nil map); `backends` are the resolved `Backends`. -/
structure Route where
  Methods : Option (List String)
  Match : String
  Backends : List String
  backends : List Backend

/-- Method `Route.MatchRequest`; `wm` is `wildcard.Match`. -/
def Route.MatchRequest (wm : String → String → Bool) (r : Route) (req : Request) : Bool :=
  if r.Match = "*" then true
  else if (match r.Methods with
      | some ms => ms.contains req.method
      | none => false) then true
  else if r.Match ≠ "" then wm r.Match req.sig
  else false

/-- The route selection loop of `handleRequest`: the position in
`c.Config.Routes` of the pointer left in `route` (`none` is the nil pointer);
`i` is the position of the head of `rs`. -/
def selectFrom (wm : String → String → Bool) (req : Request) : List Route → Nat → Option Nat
  | [], _ => none
  | r :: rs, i => if r.MatchRequest wm req then some i else selectFrom wm req rs (i + 1)

/-- The route selection loop over the whole route table. -/
def selectRoute (wm : String → String → Bool) (rs : List Route) (req : Request) : Option Nat :=
  selectFrom wm req rs 0

/-! ## jrpc.go -/

/-- Assignment `m[k] = v` on a Go map. -/
def mapSet {κ ν : Type} [BEq κ] : List (κ × ν) → κ → ν → List (κ × ν)
  | [], k, v => [(k, v)]
  | (k', v') :: rest, k, v =>
    if k' == k then (k, v) :: rest else (k', v') :: mapSet rest k v

/-- The statement `forward[route] = append(forward[route], req)`. -/
def mapAppend : List (Option Nat × List Request) → Option Nat → Request →
    List (Option Nat × List Request)
  | [], r, q => [(r, [q])]
  | (r', qs) :: rest, r, q =>
    if r' == r then (r', qs ++ [q]) :: rest else (r', qs) :: mapAppend rest r q

/-- The content of the key-value store behind `c.DB`: under a key, the outcome
of unmarshalling the stored bytes, or nothing when the key is absent. -/
abbrev Store := String → Option (Except String Json)

/-- Go struct `Cache`, the fields read by the dispatcher: `Config.Routes` and
`DB` (`none` is the nil pointer: no cache directory configured). -/
structure Cache where
  Routes : List Route
  DB : Option Store

/-- Method `Cache.Get`: the stored response mapping, or nil when the key is
absent, the bytes do not unmarshal into a mapping, or they are `null`. -/
def Cache.Get (db : Store) (key : String) : Option Response :=
  match db key with
  | some (.ok (.obj m)) => some m
  | _ => none

/-- What one pass of the backend loop of `forwardRequest` meets: `http.NewRequest`
fails with an error text, `c.Client.Do` fails, `ioutil.ReadAll` fails, or a reply
is read, with its status code and the outcome of decoding its body. -/
inductive Attempt where
  | newRequestError (err : String) : Attempt
  | doError : Attempt
  | readError : Attempt
  | reply (status : Nat) (body : Except String Json) : Attempt

/-- The responses an attempt yields when it is an HTTP 200 whose body
`decodeResponses` accepts. -/
def Attempt.decoded : Attempt → Option (List Response)
  | .reply status body =>
    if status = 200 then
      match decodeResponses body with
      | .ok resps => some resps
      | .error _ => none
    else none
  | _ => none

/-- The outcome of posting a body: by position in the backend list of the
route, backend URL and the raw requests of the body. -/
abbrev Client := Nat → String → List RawRequest → Attempt

/-- The backend loop of `forwardRequest`; `i` is the position of the head of
the list.  Returns the result and the backends on which `c.Client.Do` was
called, in order. -/
def forwardLoop (post : Nat → Backend → Attempt) :
    List Backend → Nat → Except String (List Response) × List Backend
  | [], _ => (.error "Backend request failed", [])
  | b :: bs, i =>
    match post i b with
    | .newRequestError err => (.error ("NewRequest: " ++ err), [])
    | .doError => ((forwardLoop post bs (i + 1)).1, b :: (forwardLoop post bs (i + 1)).2)
    | .readError => ((forwardLoop post bs (i + 1)).1, b :: (forwardLoop post bs (i + 1)).2)
    | .reply status body =>
      if status ≠ 200 then
        ((forwardLoop post bs (i + 1)).1, b :: (forwardLoop post bs (i + 1)).2)
      else
        match decodeResponses body with
        | .error _ => ((forwardLoop post bs (i + 1)).1, b :: (forwardLoop post bs (i + 1)).2)
        | .ok resps => (.ok resps, [b])

/-- Method `Cache.forwardRequest`.  The body is the marshalled `reqs.Raw()`;
marshalling values that came out of the JSON decoder does not fail. -/
def forwardRequest (client : Client) (r : Route) (reqs : List Request) :
    Except String (List Response) × List Backend :=
  forwardLoop (fun i b => client i b.URL (Requests.Raw reqs)) r.backends 0

/-- State of the classification loop of `handleRequest`, with the keys passed
to `c.Get` so far. -/
structure Classified where
  resps : List Response
  forward : List (Option Nat × List Request)
  id2key : List (Json × String)
  gets : List String

/-- The tail of the loop body: route selection and `forward[route] = append(...)`. -/
def enqueue (wm : String → String → Bool) (c : Cache) (st : Classified) (req : Request) :
    Classified :=
  { st with forward := mapAppend st.forward (selectRoute wm c.Routes req) req }

/-- One pass of the classification loop of `handleRequest`.  The flag is true
when the pass panics: `id2key[id] = req.sig` with an unhashable `id`. -/
def classifyStep (wm : String → String → Bool) (c : Cache) (st : Classified) (req : Request) :
    Classified × Bool :=
  let id := (req.raw.lookup "id").getD .null
  let hasID := (req.raw.lookup "id").isSome
  if req.method = "" then
    ({ st with resps := st.resps ++ [[("id", id), ("error", .str "Missing method")]] }, false)
  else
    match c.DB with
    | none => (enqueue wm c st req, false)
    | some db =>
      if req.Cachable then
        let st1 := { st with gets := st.gets ++ [req.sig] }
        match Cache.Get db req.sig with
        | some resp => ({ st1 with resps := st1.resps ++ [mapSet resp "id" id] }, false)
        | none =>
          if hasID then
            if id.hashable then
              (enqueue wm c { st1 with id2key := mapSet st1.id2key id req.sig } req, false)
            else (st1, true)
          else (enqueue wm c st1 req, false)
      else (enqueue wm c st req, false)

/-- The classification loop of `handleRequest`. -/
def classify (wm : String → String → Bool) (c : Cache) :
    List Request → Classified → Classified × Bool
  | [], st => (st, false)
  | q :: qs, st =>
    if (classifyStep wm c st q).2 then ((classifyStep wm c st q).1, true)
    else classify wm c qs (classifyStep wm c st q).1

/-- The forwarding goroutines of `handleRequest`, in the order in which they
append: the error texts and `fwresps`.  `none` is a panic: `forwardRequest`
reads `r.backends` through a nil `r`. -/
def fanOut (client : Client) (routes : List Route) :
    List (Option Nat × List Request) → Option (List String × List Response)
  | [] => some ([], [])
  | (key, reqs) :: rest =>
    match key.bind (fun i => routes.get? i) with
    | none => none
    | some r =>
      match (forwardRequest client r reqs).1, fanOut client routes rest with
      | _, none => none
      | .error e, some (errs, fw) => some (e :: errs, fw)
      | .ok resps, some (errs, fw) => some (errs, resps ++ fw)

/-- One pass of the write-back loop of `handleRequest`; `none` is a panic
(`id2key[id]` with an unhashable `id`).  The value added is `fjson.Marshal(resp)`. -/
def writeBackStep (id2key : List (Json × String)) (keyval : List (String × Json))
    (resp : Response) : Option (List (String × Json)) :=
  match resp.lookup "id" with
  | none => some keyval
  | some id =>
    if (resp.lookup "error").isSome then some keyval
    else if id.hashable then
      let key := (id2key.lookup id).getD ""
      if key ≠ "" then some (mapSet keyval key (.obj resp)) else some keyval
    else none

/-- The write-back loop of `handleRequest`: the final `keyval`. -/
def writeBack (id2key : List (Json × String)) :
    List Response → List (String × Json) → Option (List (String × Json))
  | [], keyval => some keyval
  | resp :: rest, keyval =>
    match writeBackStep id2key keyval resp with
    | none => none
    | some kv => writeBack id2key rest kv

/-- The call `toJSON(resps)` on the slice `resps` of `handleRequest`.  The slice
is declared `var resps Responses` and only grows by `append`, so it is nil
exactly when it is empty, and the encoder writes `null` for a nil slice. -/
def marshalResponses (resps : List Response) : Json :=
  if resps.isEmpty then .null else .arr (resps.map Json.obj)

/-- What the client receives: `ctx.Error(msg, status)`, `ctx.Success` with the
marshalled document, or nothing because the process panicked. -/
inductive Reply where
  | error (msg : String) (status : Nat) : Reply
  | success (body : Json) : Reply
  | crash : Reply

/-- The end of `handleRequest`: the body sent for `resps`. -/
def respond (batch : Bool) (resps : List Response) : Reply :=
  if batch then .success (marshalResponses resps)
  else
    match resps with
    | r :: _ => .success (.obj r)
    | [] => .success (.obj [("error", .str "No response from backend")])

/-- One run of `handleRequest`: the reply, the keys passed to `c.Get`, the map
`id2key`, the slices `errors` and `fwresps` filled by the forwarding goroutines,
the batch passed to `c.SetMany` (`none` when it is not called) and whether the
write-back goroutine panicked. -/
structure Exchange where
  reply : Reply
  gets : List String
  id2key : List (Json × String)
  errors : List String
  fresh : List Response
  setMany : Option (List (String × Json))
  writeBackPanic : Bool

/-- An exchange that ends before the cache or a backend is touched. -/
def Exchange.early (r : Reply) : Exchange :=
  { reply := r, gets := [], id2key := [], errors := [], fresh := [], setMany := none,
    writeBackPanic := false }

/-- The order in which the forwarding goroutines append to `fwresps`. -/
abbrev Sched := List (Option Nat × List Request) → List (Option Nat × List Request)

/-- The part of `handleRequest` after `decodeRequests` succeeded. -/
def dispatch (wm : String → String → Bool) (client : Client) (sched : Sched) (c : Cache)
    (reqs : List Request) (batch : Bool) : Exchange :=
  let cl := classify wm c reqs { resps := [], forward := [], id2key := [], gets := [] }
  let st := cl.1
  if cl.2 then
    { reply := .crash, gets := st.gets, id2key := st.id2key, errors := [], fresh := [],
      setMany := none, writeBackPanic := false }
  else if st.forward.isEmpty then
    { reply := respond batch st.resps, gets := st.gets, id2key := st.id2key, errors := [],
      fresh := [], setMany := none, writeBackPanic := false }
  else
    match fanOut client c.Routes (sched st.forward) with
    | none =>
      { reply := .crash, gets := st.gets, id2key := st.id2key, errors := [], fresh := [],
        setMany := none, writeBackPanic := false }
    | some (errs, fw) =>
      if !errs.isEmpty then
        { reply := .error "Failed to forward request" 500, gets := st.gets,
          id2key := st.id2key, errors := errs, fresh := fw, setMany := none,
          writeBackPanic := false }
      else
        match writeBack st.id2key fw [] with
        | none =>
          { reply := respond batch (st.resps ++ fw), gets := st.gets, id2key := st.id2key,
            errors := errs, fresh := fw, setMany := none, writeBackPanic := true }
        | some kv =>
          { reply := respond batch (st.resps ++ fw), gets := st.gets, id2key := st.id2key,
            errors := errs, fresh := fw, setMany := if kv.isEmpty then none else some kv,
            writeBackPanic := false }

/-- Method `Cache.handleRequest`.  `isPost` is `ctx.IsPost()`, `ct` the content
type header after `ToLower` and `TrimSpace`, `dec` the outcome of decoding the
body as JSON. -/
def handleRequest (lower : Char → Char) (wm : String → String → Bool) (client : Client)
    (sched : Sched) (c : Cache) (isPost : Bool) (ct : String) (dec : Except String Json) :
    Exchange :=
  if !isPost then Exchange.early (.error "Invalid method" 405)
  else if ct = "" then Exchange.early (.error "Missing content type" 400)
  else if !hasPrefix ct "application/json" then
    Exchange.early (.error "Invalid content type" 415)
  else
    match decodeRequests lower dec with
    | .error e => Exchange.early (.error ("Failed to decode request: " ++ e) 400)
    | .ok (reqs, batch) => dispatch wm client sched c reqs batch

/-! ## Inputs of the end-to-end scenarios -/

/-- The route table of scenario 1: `default=eth_blockNumber` as `parseRoute`
builds it, followed by the terminal `default=match:*`; one backend
`default=http://u1`. -/
def scenarioRoutes : List Route :=
  [{ Methods := some ["eth_blocknumber"], Match := "", Backends := ["default"],
     backends := [⟨"default", "http://u1"⟩] },
   { Methods := none, Match := "*", Backends := ["default"],
     backends := [⟨"default", "http://u1"⟩] }]

/-- The configuration of scenario 1 with an enabled, empty cache. -/
def scenarioCache : Cache := { Routes := scenarioRoutes, DB := some (fun _ => none) }

/-- The request of scenario 1. -/
def scenarioRequest : Json :=
  .obj [("jsonrpc", .str "2.0"), ("id", .num "1"), ("method", .str "eth_blockNumber"),
    ("params", .arr [])]

/-- The response of the backend `u1` in scenario 1. -/
def scenarioResponse : Response :=
  [("jsonrpc", .str "2.0"), ("id", .num "1"), ("result", .str "0x10")]

/-- The backend `u1` of scenario 1: it answers every post with `scenarioResponse`. -/
def scenarioClient : Client := fun _ _ _ => .reply 200 (.ok (.obj scenarioResponse))

/-- A batch of two calls of `eth_getBlockByNumber`: params `["0x1", false]` with
id 1 and params `["0x1 false"]` with id 2. -/
def collisionBatch : Json :=
  .arr [.obj [("id", .num "1"), ("method", .str "eth_getBlockByNumber"),
      ("params", .arr [.str "0x1", .bool false])],
    .obj [("id", .num "2"), ("method", .str "eth_getBlockByNumber"),
      ("params", .arr [.str "0x1 false"])]]

/-- A backend that answers `collisionBatch` with a result for id 1 and an error
for id 2. -/
def collisionClient : Client := fun _ _ _ =>
  .reply 200 (.ok (.arr [.obj [("id", .num "1"), ("result", .str "0xaa")],
    .obj [("id", .num "2"), ("error", .str "invalid params")]]))

/-- No wildcard pattern other than `*` is configured in the scenarios. -/
def noWildcard : String → String → Bool := fun _ _ => false

/-! ## Lemmas on strings -/

theorem hasPrefix_iff (s pre : String) : hasPrefix s pre = true ↔ ∃ t : String, s = pre ++ t := by
  unfold hasPrefix
  rw [List.isPrefixOf_iff_prefix]
  constructor
  · rintro ⟨t, ht⟩
    exact ⟨⟨t⟩, String.ext (by simp [ht])⟩
  · rintro ⟨t, rfl⟩
    exact ⟨t.data, by simp⟩

/-! ## Cacheability -/

/-- C4. `Request.Cachable` of a request built by `NewRequest` is true when the
lower-cased method is not `eth_getblockbynumber`; and when it is, it is true
exactly if `params` is a two-element array whose first element is a string
starting with `0x`. -/
theorem cachable_spec (lower : Char → Char) (raw : RawRequest) :
    (toLower lower (methodOf raw) ≠ "eth_getblockbynumber" →
      (NewRequest lower raw).Cachable = true) ∧
    (toLower lower (methodOf raw) = "eth_getblockbynumber" →
      ((NewRequest lower raw).Cachable = true ↔
        ∃ s v t, raw.lookup "params" = some (.arr [.str s, v]) ∧ s = "0x" ++ t)) := by
  constructor
  · intro h
    simp only [Request.Cachable, NewRequest]
    rw [if_neg h]
  · intro h
    simp only [Request.Cachable, NewRequest]
    rw [if_pos h]
    constructor
    · intro hc
      split at hc
      · rename_i v0 v1 hp
        split at hc
        · rename_i s
          obtain ⟨t, ht⟩ := (hasPrefix_iff _ _).1 hc
          exact ⟨s, v1, t, hp, ht⟩
        · exact absurd hc (by simp)
      · exact absurd hc (by simp)
    · rintro ⟨s, v, t, hp, ht⟩
      rw [hp]
      exact (hasPrefix_iff _ _).2 ⟨t, ht⟩

/-! ## Route selection -/

theorem selectFrom_eq_some (wm : String → String → Bool) (q : Request) :
    ∀ (rs : List Route) (k i : Nat), selectFrom wm q rs k = some i ↔
      ∃ n r, i = k + n ∧ rs.get? n = some r ∧ r.MatchRequest wm q = true ∧
        ∀ m r', m < n → rs.get? m = some r' → r'.MatchRequest wm q = false := by
  intro rs
  induction rs with
  | nil => intro k i; simp [selectFrom]
  | cons a rs ih =>
    intro k i
    unfold selectFrom
    by_cases ha : a.MatchRequest wm q = true
    · rw [if_pos ha]
      constructor
      · intro h
        refine ⟨0, a, ?_, rfl, ha, ?_⟩
        · simpa using (Option.some.inj h).symm
        · intro m r' hm; exact absurd hm (Nat.not_lt_zero m)
      · rintro ⟨n, r, hi, hn, hr, hfirst⟩
        cases n with
        | zero => simp [hi]
        | succ n =>
          have := hfirst 0 a (Nat.succ_pos n) rfl
          rw [ha] at this; exact absurd this (by simp)
    · rw [if_neg ha, ih]
      have ha' : a.MatchRequest wm q = false := by simpa using ha
      constructor
      · rintro ⟨n, r, hi, hn, hr, hfirst⟩
        refine ⟨n + 1, r, by omega, by simpa using hn, hr, ?_⟩
        intro m r' hm hm'
        cases m with
        | zero =>
          have : a = r' := by simpa using hm'
          rw [← this]; exact ha'
        | succ m => exact hfirst m r' (by omega) (by simpa using hm')
      · rintro ⟨n, r, hi, hn, hr, hfirst⟩
        cases n with
        | zero =>
          have : a = r := by simpa using hn
          rw [this] at ha; exact absurd hr ha
        | succ n =>
          refine ⟨n, r, by omega, by simpa using hn, hr, ?_⟩
          intro m r' hm hm'
          exact hfirst (m + 1) r' (by omega) (by simpa using hm')

theorem selectFrom_eq_none (wm : String → String → Bool) (q : Request) :
    ∀ (rs : List Route) (k : Nat), selectFrom wm q rs k = none ↔
      ∀ r ∈ rs, r.MatchRequest wm q = false := by
  intro rs
  induction rs with
  | nil => intro k; simp [selectFrom]
  | cons a rs ih =>
    intro k
    unfold selectFrom
    by_cases ha : a.MatchRequest wm q = true
    · rw [if_pos ha]; simp [ha]
    · rw [if_neg ha, ih]
      have ha' : a.MatchRequest wm q = false := by simpa using ha
      simp [ha']

theorem selectFrom_append (wm : String → String → Bool) (q : Request) (extra : List Route) :
    ∀ (rs : List Route) (k i : Nat), selectFrom wm q rs k = some i →
      selectFrom wm q (rs ++ extra) k = some i := by
  intro rs
  induction rs with
  | nil => intro k i h; simp [selectFrom] at h
  | cons a rs ih =>
    intro k i h
    rw [List.cons_append]
    unfold selectFrom at h ⊢
    by_cases ha : a.MatchRequest wm q = true
    · rw [if_pos ha] at h ⊢; exact h
    · rw [if_neg ha] at h ⊢; exact ih _ _ h

/-- C5. The selection loop of `handleRequest` picks the first route, in
declaration order, whose `MatchRequest` holds (the nil route exactly when none
matches), and when it picks a route from `rs` it picks the same route from
`rs ++ extra`. -/
theorem selectRoute_first_match (wm : String → String → Bool) (rs extra : List Route)
    (q : Request) :
    (∀ i, selectRoute wm rs q = some i ↔
      ∃ r, rs.get? i = some r ∧ r.MatchRequest wm q = true ∧
        ∀ j r', j < i → rs.get? j = some r' → r'.MatchRequest wm q = false) ∧
    (selectRoute wm rs q = none ↔ ∀ r ∈ rs, r.MatchRequest wm q = false) ∧
    (∀ i, selectRoute wm rs q = some i → selectRoute wm (rs ++ extra) q = some i) := by
  refine ⟨?_, selectFrom_eq_none wm q rs 0, fun i h => selectFrom_append wm q extra rs 0 i h⟩
  intro i
  unfold selectRoute
  rw [selectFrom_eq_some]
  constructor
  · rintro ⟨n, r, hi, h⟩
    have : i = n := by omega
    subst this
    exact ⟨r, h⟩
  · rintro ⟨r, h⟩
    exact ⟨i, r, by omega, h⟩

/-! ## Failover -/

theorem forwardLoop_cons_fail (post : Nat → Backend → Attempt) (b : Backend) (bs : List Backend)
    (i : Nat) (hn : ∀ e, post i b ≠ .newRequestError e) (hd : (post i b).decoded = none) :
    forwardLoop post (b :: bs) i =
      ((forwardLoop post bs (i + 1)).1, b :: (forwardLoop post bs (i + 1)).2) := by
  cases hp : post i b with
  | newRequestError e => exact absurd hp (hn e)
  | doError => simp only [forwardLoop, hp]
  | readError => simp only [forwardLoop, hp]
  | reply status body =>
    rw [hp] at hd
    simp only [Attempt.decoded] at hd
    simp only [forwardLoop, hp]
    by_cases hs : status = 200
    · rw [if_pos hs] at hd
      rw [if_neg (by simpa using hs)]
      cases hb : decodeResponses body with
      | error e => rfl
      | ok resps => rw [hb] at hd; exact absurd hd (by simp)
    · rw [if_pos hs]

theorem forwardLoop_cons_ok (post : Nat → Backend → Attempt) (b : Backend) (bs : List Backend)
    (i : Nat) (resps : List Response) (hd : (post i b).decoded = some resps) :
    forwardLoop post (b :: bs) i = (.ok resps, [b]) := by
  cases hp : post i b with
  | newRequestError e => rw [hp] at hd; simp [Attempt.decoded] at hd
  | doError => rw [hp] at hd; simp [Attempt.decoded] at hd
  | readError => rw [hp] at hd; simp [Attempt.decoded] at hd
  | reply status body =>
    rw [hp] at hd
    simp only [Attempt.decoded] at hd
    simp only [forwardLoop, hp]
    by_cases hs : status = 200
    · rw [if_pos hs] at hd
      rw [if_neg (by simpa using hs)]
      cases hb : decodeResponses body with
      | error e => rw [hb] at hd; exact absurd hd (by simp)
      | ok r =>
        rw [hb] at hd
        have : r = resps := by simpa using hd
        rw [this]
    · rw [if_neg hs] at hd; exact absurd hd (by simp)

theorem forwardLoop_all_fail (post : Nat → Backend → Attempt) :
    ∀ (bs : List Backend) (k : Nat),
      (∀ j b, bs.get? j = some b → ∀ e, post (k + j) b ≠ .newRequestError e) →
      (∀ j b, bs.get? j = some b → (post (k + j) b).decoded = none) →
      forwardLoop post bs k = (.error "Backend request failed", bs) := by
  intro bs
  induction bs with
  | nil => intro k _ _; rfl
  | cons b bs ih =>
    intro k hn hd
    rw [forwardLoop_cons_fail post b bs k (hn 0 b rfl) (hd 0 b rfl)]
    rw [ih (k + 1) (fun j b' hj => by
          have := hn (j + 1) b' (by simpa using hj)
          rwa [show k + 1 + j = k + (j + 1) by omega])
        (fun j b' hj => by
          have := hd (j + 1) b' (by simpa using hj)
          rwa [show k + 1 + j = k + (j + 1) by omega])]

theorem forwardLoop_first_ok (post : Nat → Backend → Attempt) :
    ∀ (bs : List Backend) (k i : Nat) (b : Backend) (resps : List Response),
      (∀ j b', bs.get? j = some b' → ∀ e, post (k + j) b' ≠ .newRequestError e) →
      bs.get? i = some b → (post (k + i) b).decoded = some resps →
      (∀ j b', j < i → bs.get? j = some b' → (post (k + j) b').decoded = none) →
      forwardLoop post bs k = (.ok resps, bs.take (i + 1)) := by
  intro bs
  induction bs with
  | nil => intro k i b resps _ hi; simp at hi
  | cons a bs ih =>
    intro k i b resps hn hi hd hfirst
    cases i with
    | zero =>
      have : a = b := by simpa using hi
      subst this
      rw [forwardLoop_cons_ok post a bs k resps (by simpa using hd)]
      simp
    | succ i =>
      rw [forwardLoop_cons_fail post a bs k (hn 0 a rfl) (hfirst 0 a (Nat.succ_pos i) rfl)]
      rw [ih (k + 1) i b resps
        (fun j b' hj => by
          have := hn (j + 1) b' (by simpa using hj)
          rwa [show k + 1 + j = k + (j + 1) by omega])
        (by simpa using hi)
        (by rwa [show k + 1 + i = k + (i + 1) by omega])
        (fun j b' hj hb' => by
          have := hfirst (j + 1) b' (by omega) (by simpa using hb')
          rwa [show k + 1 + j = k + (j + 1) by omega])]
      simp

theorem forwardLoop_error_all_fail (post : Nat → Backend → Attempt) :
    ∀ (bs : List Backend) (k : Nat) (e : String),
      (∀ j b, bs.get? j = some b → ∀ e, post (k + j) b ≠ .newRequestError e) →
      (forwardLoop post bs k).1 = .error e →
      ∀ j b, bs.get? j = some b → (post (k + j) b).decoded = none := by
  intro bs
  induction bs with
  | nil => intro k e _ _ j b hj; simp at hj
  | cons a bs ih =>
    intro k e hn he j b hj
    cases hda : (post k a).decoded with
    | some resps =>
      rw [forwardLoop_cons_ok post a bs k resps hda] at he
      exact absurd he (by simp)
    | none =>
      cases j with
      | zero =>
        have : a = b := by simpa using hj
        subst this; simpa using hda
      | succ j =>
        rw [forwardLoop_cons_fail post a bs k (hn 0 a rfl) hda] at he
        have := ih (k + 1) e
          (fun j b' hj => by
            have := hn (j + 1) b' (by simpa using hj)
            rwa [show k + 1 + j = k + (j + 1) by omega])
          he j b (by simpa using hj)
        rwa [show k + 1 + j = k + (j + 1) by omega] at this

/-- C7. When no attempt fails in `http.NewRequest`, `forwardRequest` contacts the
backends of the route in declared order and stops at the first one whose attempt is
an HTTP 200 with a decodable body: it returns that backend's responses and has
contacted exactly the backends up to it; it returns an error exactly when every
backend's attempt fails, and then it has contacted all of them. -/
theorem forwardRequest_failover (client : Client) (r : Route) (reqs : List Request)
    (h : ∀ i b, r.backends.get? i = some b →
      ∀ e, client i b.URL (Requests.Raw reqs) ≠ .newRequestError e) :
    (∀ i b resps, r.backends.get? i = some b →
      (client i b.URL (Requests.Raw reqs)).decoded = some resps →
      (∀ j b', j < i → r.backends.get? j = some b' →
        (client j b'.URL (Requests.Raw reqs)).decoded = none) →
      forwardRequest client r reqs = (.ok resps, r.backends.take (i + 1))) ∧
    ((∃ e, (forwardRequest client r reqs).1 = .error e) ↔
      ∀ i b, r.backends.get? i = some b →
        (client i b.URL (Requests.Raw reqs)).decoded = none) ∧
    ((∀ i b, r.backends.get? i = some b →
        (client i b.URL (Requests.Raw reqs)).decoded = none) →
      (forwardRequest client r reqs).2 = r.backends) := by
  have h0 : ∀ j b, r.backends.get? j = some b →
      ∀ e, (fun i b => client i b.URL (Requests.Raw reqs)) (0 + j) b ≠ .newRequestError e := by
    intro j b hj; simpa using h j b hj
  refine ⟨?_, ⟨?_, ?_⟩, ?_⟩
  · intro i b resps hi hd hfirst
    unfold forwardRequest
    exact forwardLoop_first_ok _ r.backends 0 i b resps h0 hi (by simpa using hd)
      (fun j b' hj hb' => by simpa using hfirst j b' hj hb')
  · rintro ⟨e, he⟩ i b hi
    have := forwardLoop_error_all_fail _ r.backends 0 e h0 he i b hi
    simpa using this
  · intro hall
    unfold forwardRequest
    rw [forwardLoop_all_fail _ r.backends 0 h0 (fun j b hj => by simpa using hall j b hj)]
    exact ⟨_, rfl⟩
  · intro hall
    unfold forwardRequest
    rw [forwardLoop_all_fail _ r.backends 0 h0 (fun j b hj => by simpa using hall j b hj)]

/-- Witness of C7: a route with a backend that refuses the connection and one
that answers; the second backend's responses are returned, both were contacted. -/
theorem forwardRequest_failover_witness :
    forwardRequest
        (fun i _ _ => if i = 0 then Attempt.doError
          else Attempt.reply 200 (.ok (.obj [("id", .num "1"), ("result", .str "0x10")])))
        { Methods := none, Match := "*", Backends := ["a", "b"],
          backends := [⟨"a", "http://bad"⟩, ⟨"b", "http://good"⟩] } [] =
      (.ok [[("id", .num "1"), ("result", .str "0x10")]],
        [⟨"a", "http://bad"⟩, ⟨"b", "http://good"⟩]) :=
  (forwardRequest_failover
    (fun i _ _ => if i = 0 then Attempt.doError
      else Attempt.reply 200 (.ok (.obj [("id", .num "1"), ("result", .str "0x10")])))
    { Methods := none, Match := "*", Backends := ["a", "b"],
      backends := [⟨"a", "http://bad"⟩, ⟨"b", "http://good"⟩] } []
    (by intro i b _ e; by_cases hi : i = 0 <;> simp [hi])).1 1 ⟨"b", "http://good"⟩
      [[("id", .num "1"), ("result", .str "0x10")]] rfl rfl
      (by
        intro j b' hj _
        have : j = 0 := by omega
        subst this; rfl)

/-! ## The order of printed map keys -/

theorem char_toNat_inj {a b : Char} (h : a.toNat = b.toNat) : a = b := by
  apply Char.eq_of_val_eq
  apply UInt32.ext
  exact h

theorem strLt_asymm : ∀ a b : List Char, strLt a b = true → strLt b a = false
  | [], [], h => by simp [strLt] at h
  | [], _ :: _, _ => by simp [strLt]
  | _ :: _, [], h => by simp [strLt] at h
  | a :: as, b :: bs, h => by
    simp only [strLt] at h ⊢
    by_cases h1 : a.toNat < b.toNat
    · have h2 : ¬ b.toNat < a.toNat := by omega
      simp [h1, h2]
    · by_cases h2 : b.toNat < a.toNat
      · simp [h1, h2] at h
      · simp only [h1, h2, if_false] at h ⊢
        exact strLt_asymm as bs h

theorem strLt_trichotomy : ∀ a b : List Char, strLt a b = false → strLt b a = false → a = b
  | [], [], _, _ => rfl
  | [], _ :: _, h, _ => by simp [strLt] at h
  | _ :: _, [], _, h => by simp [strLt] at h
  | a :: as, b :: bs, h, h' => by
    simp only [strLt] at h h'
    by_cases h1 : a.toNat < b.toNat
    · simp [h1] at h
    · by_cases h2 : b.toNat < a.toNat
      · simp [h2] at h'
      · simp only [h1, h2, if_false] at h h'
        have hab : a = b := char_toNat_inj (by omega)
        rw [hab, strLt_trichotomy as bs h h']

theorem strLt_trans : ∀ a b c : List Char, strLt a b = true → strLt b c = true →
    strLt a c = true
  | [], _, [], _, h => by cases ‹List Char› <;> simp [strLt] at h
  | [], _, _ :: _, _, _ => by simp [strLt]
  | _ :: _, [], _, h, _ => by simp [strLt] at h
  | _ :: _, _ :: _, [], _, h => by simp [strLt] at h
  | a :: as, b :: bs, c :: cs, h, h' => by
    simp only [strLt] at h h' ⊢
    by_cases h1 : a.toNat < b.toNat
    · by_cases h2 : b.toNat < c.toNat
      · have : a.toNat < c.toNat := by omega
        simp [this]
      · by_cases h3 : c.toNat < b.toNat
        · simp [h2, h3] at h'
        · have : a.toNat < c.toNat := by omega
          simp [this]
    · by_cases h1' : b.toNat < a.toNat
      · simp [h1, h1'] at h
      · simp only [h1, h1', if_false] at h
        by_cases h2 : b.toNat < c.toNat
        · have : a.toNat < c.toNat := by omega
          simp [this]
        · by_cases h3 : c.toNat < b.toNat
          · simp [h2, h3] at h'
          · simp only [h2, h3, if_false] at h'
            have e1 : ¬ a.toNat < c.toNat := by omega
            have e2 : ¬ c.toNat < a.toNat := by omega
            simp only [e1, e2, if_false]
            exact strLt_trans as bs cs h h'

theorem keyLe_total (a b : String × String) : keyLe a b ∨ keyLe b a := by
  unfold keyLe
  cases h : strLt b.1.data a.1.data with
  | false => exact Or.inl rfl
  | true => exact Or.inr (strLt_asymm _ _ h)

theorem keyLe_trans (a b c : String × String) (hab : keyLe a b) (hbc : keyLe b c) :
    keyLe a c := by
  unfold keyLe at *
  cases hca : strLt c.1.data a.1.data with
  | false => rfl
  | true =>
    cases hcb : strLt a.1.data b.1.data with
    | false =>
      have e := strLt_trichotomy _ _ hcb hab
      rw [e] at hca; rw [hca] at hbc; exact absurd hbc (by simp)
    | true =>
      have := strLt_trans _ _ _ hca hcb
      rw [this] at hbc; exact absurd hbc (by simp)

theorem keyLt_antisymm (a b : String × String) (hab : keyLt a b) (hba : keyLt b a) :
    a = b := by
  unfold keyLt at *
  rw [strLt_asymm _ _ hab] at hba; exact absurd hba (by simp)

theorem sorted_insertionSort_keyLe (l : List (String × String)) :
    (l.insertionSort keyLe).Sorted keyLe := by
  haveI : IsTotal (String × String) keyLe := ⟨keyLe_total⟩
  haveI : IsTrans (String × String) keyLe := ⟨keyLe_trans⟩
  exact List.sorted_insertionSort keyLe l

theorem sorted_keyLt_of_nodup {l : List (String × String)} (hs : l.Sorted keyLe)
    (hn : NodupKeys l) : l.Sorted keyLt := by
  have hp : l.Pairwise (fun a b => a.1 ≠ b.1) := by
    unfold NodupKeys at hn
    exact (List.pairwise_map.1 hn)
  refine (List.Pairwise.and hs hp).imp ?_
  rintro a b ⟨hle, hne⟩
  unfold keyLe at hle
  unfold keyLt
  cases h : strLt a.1.data b.1.data with
  | true => rfl
  | false =>
    have := strLt_trichotomy _ _ h hle
    exact absurd (String.ext this) hne

theorem insertionSort_eq_of_perm {l₁ l₂ : List (String × String)} (hp : l₁.Perm l₂)
    (hn : NodupKeys l₁) : l₁.insertionSort keyLe = l₂.insertionSort keyLe := by
  have p1 := List.perm_insertionSort keyLe l₁
  have p2 := List.perm_insertionSort keyLe l₂
  have n1 : NodupKeys (l₁.insertionSort keyLe) := by
    unfold NodupKeys at *
    exact (List.Perm.nodup_iff (p1.map Prod.fst)).2 hn
  have n2 : NodupKeys (l₂.insertionSort keyLe) := by
    unfold NodupKeys at *
    exact (List.Perm.nodup_iff ((p2.trans hp.symm).map Prod.fst)).2 hn
  haveI : IsAntisymm (String × String) keyLt := ⟨keyLt_antisymm⟩
  exact List.eq_of_perm_of_sorted (p1.trans (hp.trans p2.symm))
    (sorted_keyLt_of_nodup (sorted_insertionSort_keyLe l₁) n1)
    (sorted_keyLt_of_nodup (sorted_insertionSort_keyLe l₂) n2)

/-! ## Stability of the fingerprint -/

theorem lookup_of_mem {α : Type} {l : List (String × α)} {k : String} {v : α}
    (hn : NodupKeys l) (hm : (k, v) ∈ l) : l.lookup k = some v := by
  induction l with
  | nil => simp at hm
  | cons p l ih =>
    obtain ⟨k', v'⟩ := p
    unfold NodupKeys at hn
    simp only [List.map_cons, List.nodup_cons, List.mem_map, not_exists, not_and] at hn
    rw [List.lookup_cons]
    rcases List.mem_cons.1 hm with h | h
    · have hk : k = k' := (Prod.mk.inj h).1
      have hv : v = v' := (Prod.mk.inj h).2
      simp [hk, hv]
    · have hne : (k == k') = false := by
        simp only [beq_eq_false_iff_ne, ne_eq]
        intro e
        exact hn.1 (k, v) h e
      rw [hne]
      exact ih hn.2 h

theorem mem_of_lookup {α : Type} {l : List (String × α)} {k : String} {v : α}
    (h : l.lookup k = some v) : (k, v) ∈ l := by
  induction l with
  | nil => simp at h
  | cons p l ih =>
    obtain ⟨k', v'⟩ := p
    rw [List.lookup_cons] at h
    by_cases hk : k = k'
    · simp only [hk, beq_self_eq_true, Option.some.injEq] at h
      simp [hk, h]
    · have hne : (k == k') = false := by simpa using hk
      rw [hne] at h
      exact List.mem_cons_of_mem _ (ih h)

theorem fmtFields_keys (fs : List (String × Json)) :
    (fmtFields fs).map Prod.fst = fs.map Prod.fst := by
  induction fs with
  | nil => rfl
  | cons p fs ih => obtain ⟨k, v⟩ := p; simp [fmtFields, ih]

theorem fmtFields_length (fs : List (String × Json)) : (fmtFields fs).length = fs.length := by
  induction fs with
  | nil => rfl
  | cons p fs ih => obtain ⟨k, v⟩ := p; simp [fmtFields, ih]

theorem mem_fmtFields {fs : List (String × Json)} {k : String} {w : Json}
    (h : (k, w) ∈ fs) : (k, fmtV w) ∈ fmtFields fs := by
  induction fs with
  | nil => simp at h
  | cons p fs ih =>
    obtain ⟨k', v'⟩ := p
    rcases List.mem_cons.1 h with h | h
    · rw [← h]; simp [fmtFields]
    · simp only [fmtFields]
      exact List.mem_cons_of_mem _ (ih h)

theorem perm_of_subset_nodupKeys {l₁ l₂ : List (String × String)} (hn : NodupKeys l₁)
    (hs : l₁ ⊆ l₂) (hl : l₁.length = l₂.length) : l₁.Perm l₂ := by
  have hnd : l₁.Nodup := List.Nodup.of_map Prod.fst hn
  exact (List.subperm_of_subset hnd hs).perm_of_length_le (by omega)

mutual
theorem fmtV_keyEq : ∀ (a b : Json), a.WF → a.KeyEq b → fmtV a = fmtV b
  | .null, b, _, h => by simp only [Json.KeyEq] at h; rw [h]
  | .bool x, b, _, h => by simp only [Json.KeyEq] at h; rw [h]
  | .num t, b, _, h => by simp only [Json.KeyEq] at h; rw [h]
  | .str s, b, _, h => by simp only [Json.KeyEq] at h; rw [h]
  | .arr xs, b, hw, h => by
    simp only [Json.KeyEq] at h
    obtain ⟨ys, rfl, hxy⟩ := h
    simp only [Json.WF] at hw
    simp only [fmtV]
    rw [fmtVs_keyEq xs ys hw hxy]
  | .obj fs, b, hw, h => by
    simp only [Json.KeyEq] at h
    obtain ⟨gs, rfl, hlen, hfg⟩ := h
    simp only [Json.WF] at hw
    simp only [fmtV]
    have hsub := fmtFields_sub fs gs hw.2 hfg
    have hn : NodupKeys (fmtFields fs) := by
      unfold NodupKeys; rw [fmtFields_keys]; exact hw.1
    have hp := perm_of_subset_nodupKeys hn hsub
      (by rw [fmtFields_length, fmtFields_length, hlen])
    rw [insertionSort_eq_of_perm hp hn]
theorem fmtVs_keyEq : ∀ (xs ys : List Json), Json.WFList xs → Json.KeyEqList xs ys →
    fmtVs xs = fmtVs ys
  | [], ys, _, h => by simp only [Json.KeyEqList] at h; rw [h]
  | x :: xs, ys, hw, h => by
    simp only [Json.KeyEqList] at h
    obtain ⟨y, ys', rfl, hxy, hrest⟩ := h
    simp only [Json.WFList] at hw
    simp only [fmtVs]
    rw [fmtV_keyEq x y hw.1 hxy, fmtVs_keyEq xs ys' hw.2 hrest]
theorem fmtFields_sub : ∀ (fs gs : List (String × Json)), Json.WFFields fs →
    Json.KeyEqFields fs gs → fmtFields fs ⊆ fmtFields gs
  | [], gs, _, _ => by simp [fmtFields]
  | (k, v) :: fs, gs, hw, h => by
    simp only [Json.KeyEqFields] at h
    obtain ⟨⟨w, hmem, hvw⟩, hrest⟩ := h
    simp only [Json.WFFields] at hw
    simp only [fmtFields]
    intro p hp
    rcases List.mem_cons.1 hp with hp | hp
    · rw [hp, fmtV_keyEq v w hw.1 hvw]
      exact mem_fmtFields hmem
    · exact fmtFields_sub fs gs hw.2 hrest hp
end

theorem keyEqFields_mem : ∀ (fs gs : List (String × Json)) (k : String) (v : Json),
    Json.WFFields fs → Json.KeyEqFields fs gs → (k, v) ∈ fs →
    v.WF ∧ ∃ w, (k, w) ∈ gs ∧ v.KeyEq w
  | [], _, _, _, _, _, hm => by simp at hm
  | (k', v') :: fs, gs, k, v, hw, h, hm => by
    simp only [Json.KeyEqFields] at h
    simp only [Json.WFFields] at hw
    rcases List.mem_cons.1 hm with hm | hm
    · obtain ⟨rfl, rfl⟩ := Prod.mk.inj hm
      exact ⟨hw.1, h.1⟩
    · exact keyEqFields_mem fs gs k v hw.2 h.2 hm

theorem keyEqFields_keys_perm (fs gs : List (String × Json)) (hn : NodupKeys fs)
    (hw : Json.WFFields fs) (hl : fs.length = gs.length) (h : Json.KeyEqFields fs gs) :
    (fs.map Prod.fst).Perm (gs.map Prod.fst) := by
  have hsub : fs.map Prod.fst ⊆ gs.map Prod.fst := by
    intro k hk
    obtain ⟨⟨k', v⟩, hm, rfl⟩ := List.mem_map.1 hk
    obtain ⟨_, w, hw', _⟩ := keyEqFields_mem fs gs k' v hw h hm
    exact List.mem_map.2 ⟨(k', w), hw', rfl⟩
  exact (List.subperm_of_subset hn hsub).perm_of_length_le (by simp [hl])

theorem lookup_keyEq (fs gs : List (String × Json)) (hn : NodupKeys fs)
    (hw : Json.WFFields fs) (hl : fs.length = gs.length) (h : Json.KeyEqFields fs gs)
    (k : String) :
    (fs.lookup k = none ∧ gs.lookup k = none) ∨
    (∃ v w, fs.lookup k = some v ∧ gs.lookup k = some w ∧ v.WF ∧ v.KeyEq w) := by
  have hperm := keyEqFields_keys_perm fs gs hn hw hl h
  have hng : NodupKeys gs := (List.Perm.nodup_iff hperm).1 hn
  cases hf : fs.lookup k with
  | none =>
    left
    refine ⟨rfl, ?_⟩
    rw [List.lookup_eq_none_iff] at hf ⊢
    intro p hp
    have hk : p.1 ∈ fs.map Prod.fst := hperm.symm.subset (List.mem_map.2 ⟨p, hp, rfl⟩)
    obtain ⟨q, hq, hqp⟩ := List.mem_map.1 hk
    rw [← hqp]
    exact hf q hq
  | some v =>
    right
    obtain ⟨hv, w, hmem, hvw⟩ := keyEqFields_mem fs gs k v hw h (mem_of_lookup hf)
    exact ⟨v, w, rfl, lookup_of_mem hng hmem, hv, hvw⟩

theorem methodOf_keyEq (a b : RawRequest) (hn : NodupKeys a) (hw : Json.WFFields a)
    (hl : a.length = b.length) (h : Json.KeyEqFields a b) : methodOf a = methodOf b := by
  unfold methodOf
  rcases lookup_keyEq a b hn hw hl h "method" with ⟨h1, h2⟩ | ⟨v, w, h1, h2, _, hvw⟩
  · rw [h1, h2]
  · rw [h1, h2]
    cases v with
    | null => simp only [Json.KeyEq] at hvw; rw [hvw]
    | bool x => simp only [Json.KeyEq] at hvw; rw [hvw]
    | num t => simp only [Json.KeyEq] at hvw; rw [hvw]
    | str s => simp only [Json.KeyEq] at hvw; rw [hvw]
    | arr xs => simp only [Json.KeyEq] at hvw; obtain ⟨ys, rfl, _⟩ := hvw; rfl
    | obj fs => simp only [Json.KeyEq] at hvw; obtain ⟨gs, rfl, _⟩ := hvw; rfl

theorem fmtV_paramsOf_keyEq (a b : RawRequest) (hn : NodupKeys a) (hw : Json.WFFields a)
    (hl : a.length = b.length) (h : Json.KeyEqFields a b) :
    fmtV (paramsOf a) = fmtV (paramsOf b) := by
  unfold paramsOf
  rcases lookup_keyEq a b hn hw hl h "params" with ⟨h1, h2⟩ | ⟨v, w, h1, h2, hv, hvw⟩
  · rw [h1, h2]
  · rw [h1, h2]
    exact fmtV_keyEq v w hv hvw

mutual
theorem keyEq_refl : ∀ (a : Json), a.KeyEq a
  | .null => by simp only [Json.KeyEq]
  | .bool _ => by simp only [Json.KeyEq]
  | .num _ => by simp only [Json.KeyEq]
  | .str _ => by simp only [Json.KeyEq]
  | .arr xs => by
    simp only [Json.KeyEq]
    exact ⟨xs, rfl, keyEqList_refl xs⟩
  | .obj fs => by
    simp only [Json.KeyEq]
    exact ⟨fs, rfl, rfl, keyEqFields_of_subset fs fs (fun _ h => h)⟩
theorem keyEqList_refl : ∀ (xs : List Json), Json.KeyEqList xs xs
  | [] => by simp only [Json.KeyEqList]
  | x :: xs => by
    simp only [Json.KeyEqList]
    exact ⟨x, xs, rfl, keyEq_refl x, keyEqList_refl xs⟩
theorem keyEqFields_of_subset : ∀ (fs gs : List (String × Json)), fs ⊆ gs →
    Json.KeyEqFields fs gs
  | [], _, _ => by simp only [Json.KeyEqFields]
  | (k, v) :: fs, gs, h => by
    simp only [Json.KeyEqFields]
    exact ⟨⟨v, h (List.mem_cons_self _ _), keyEq_refl v⟩,
      keyEqFields_of_subset fs gs (fun _ hp => h (List.mem_cons_of_mem _ hp))⟩
end

/-- Reordering the fields of a mapping gives a mapping equal up to key order. -/
theorem keyEq_of_perm (fs gs : List (String × Json)) (h : fs.Perm gs) :
    (Json.obj fs).KeyEq (Json.obj gs) := by
  simp only [Json.KeyEq]
  exact ⟨gs, rfl, h.length_eq, keyEqFields_of_subset fs gs h.subset⟩

/-- C2. Two raw request objects that are equal up to the order of keys in
their mappings, at any depth, get the same fingerprint from `NewRequest`
(the first is a Go value: the keys of each of its mappings are distinct). -/
theorem fingerprint_stable (lower : Char → Char) (a b : RawRequest)
    (ha : (Json.obj a).WF) (h : (Json.obj a).KeyEq (Json.obj b)) :
    (NewRequest lower a).sig = (NewRequest lower b).sig := by
  simp only [Json.WF] at ha
  simp only [Json.KeyEq] at h
  obtain ⟨gs, hb, hl, hf⟩ := h
  have hb' : b = gs := by injection hb
  subst hb'
  simp only [NewRequest]
  rw [methodOf_keyEq a b ha.1 ha.2 hl hf, fmtV_paramsOf_keyEq a b ha.1 ha.2 hl hf]

/-- Witness of C2: the same call with the keys of the request object and of two
nested mappings of `params` in different orders. -/
theorem fingerprint_stable_witness :
    (NewRequest Char.toLower
        [("id", .num "7"), ("method", .str "eth_call"),
          ("params", .arr [.obj [("to", .str "0xAB"), ("data", .obj [("y", .num "2"),
            ("x", .null)])], .str "latest"])]).sig =
      (NewRequest Char.toLower
        [("params", .arr [.obj [("data", .obj [("x", .null), ("y", .num "2")]),
            ("to", .str "0xAB")], .str "latest"]),
          ("method", .str "eth_call"), ("id", .num "7")]).sig :=
  fingerprint_stable Char.toLower _ _
    (by simp [Json.WF, Json.WFList, Json.WFFields, NodupKeys])
    (by simp [Json.KeyEq, Json.KeyEqList, Json.KeyEqFields])


/-! ## Definition of the fingerprint -/

theorem fmtVs_eq_map (xs : List Json) : fmtVs xs = xs.map fmtV := by
  induction xs with
  | nil => rfl
  | cons x xs ih => simp [fmtVs, ih]

theorem fmtFields_eq_map (fs : List (String × Json)) :
    fmtFields fs = fs.map (fun kv => (kv.1, fmtV kv.2)) := by
  induction fs with
  | nil => rfl
  | cons p fs ih => obtain ⟨k, v⟩ := p; simp [fmtFields, ih]

theorem sorted_insertionSort_fieldLe (l : List (String × Json)) :
    (l.insertionSort fieldLe).Sorted fieldLe := by
  haveI : IsTotal (String × Json) fieldLe :=
    ⟨fun a b => keyLe_total (a.1, "") (b.1, "")⟩
  haveI : IsTrans (String × Json) fieldLe :=
    ⟨fun a b c hab hbc => keyLe_trans (a.1, "") (b.1, "") (c.1, "") hab hbc⟩
  exact List.sorted_insertionSort fieldLe l

/-- C8, counterexample. For the call `eth_getBalance` with params `["0xabc", null]`
the fingerprint is `eth_getbalance([0xabc <nil>])`, not the lower-cased
`method(canonical(params))` with `null` rendered as `null`. -/
theorem fingerprint_null_counterexample :
    (NewRequest Char.toLower
        [("id", .num "1"), ("method", .str "eth_getBalance"),
          ("params", .arr [.str "0xabc", .null])]).sig = "eth_getbalance([0xabc <nil>])" ∧
    (NewRequest Char.toLower
        [("id", .num "1"), ("method", .str "eth_getBalance"),
          ("params", .arr [.str "0xabc", .null])]).sig ≠
      toLower Char.toLower
        ("eth_getBalance" ++ "(" ++ specCanonical (.arr [.str "0xabc", .null]) ++ ")") := by
  decide

/-- C8, amended. For a raw request with string method `m` and params `p` the
fingerprint is the lower-cased `m(fmtV p)`, where `fmtV` renders a mapping as
`map[k1:v1 k2:v2 ...]` over its fields in ascending key order, an array as
`[e1 e2 ...]` in position order, a number as its token, a string unquoted, a
boolean as `true` or `false`, and null as `<nil>`. -/
theorem fingerprint_def (lower : Char → Char) (raw : RawRequest) (m : String) (p : Json)
    (hm : raw.lookup "method" = some (.str m)) (hp : raw.lookup "params" = some p) :
    (NewRequest lower raw).sig = toLower lower (m ++ "(" ++ fmtV p ++ ")") ∧
    fmtV .null = "<nil>" ∧
    (∀ b, fmtV (.bool b) = if b then "true" else "false") ∧
    (∀ t, fmtV (.num t) = t) ∧
    (∀ s, fmtV (.str s) = s) ∧
    (∀ xs, fmtV (.arr xs) = "[" ++ joinSp (xs.map fmtV) ++ "]") ∧
    (∀ fs, ∃ sorted : List (String × Json), sorted.Perm fs ∧
      sorted.Sorted (fun a b => strLt b.1.data a.1.data = false) ∧
      fmtV (.obj fs) =
        "map[" ++ joinSp (sorted.map (fun kv => kv.1 ++ ":" ++ fmtV kv.2)) ++ "]") := by
  refine ⟨?_, rfl, fun b => rfl, fun t => rfl, fun s => rfl, ?_, ?_⟩
  · simp only [NewRequest, methodOf, paramsOf, hm, hp, Option.getD_some]
  · intro xs
    simp only [fmtV, fmtVs_eq_map]
  · intro fs
    refine ⟨fs.insertionSort fieldLe, List.perm_insertionSort fieldLe fs,
      sorted_insertionSort_fieldLe fs, ?_⟩
    simp only [fmtV, fmtFields_eq_map]
    rw [← List.map_insertionSort (r := fieldLe) (s := keyLe)
      (fun kv : String × Json => (kv.1, fmtV kv.2)) fs (fun a _ b _ => Iff.rfl)]
    rw [List.map_map]
    rfl

/-- Witness of C8: the call `eth_blockNumber` with params `[]` has the
fingerprint `eth_blocknumber([])`. -/
theorem fingerprint_def_witness :
    (NewRequest Char.toLower
        [("jsonrpc", .str "2.0"), ("id", .num "1"), ("method", .str "eth_blockNumber"),
          ("params", .arr [])]).sig = "eth_blocknumber([])" :=
  (fingerprint_def Char.toLower
    [("jsonrpc", .str "2.0"), ("id", .num "1"), ("method", .str "eth_blockNumber"),
      ("params", .arr [])] "eth_blockNumber" (.arr []) rfl rfl).1.trans (by decide)


/-! ## What the fingerprint determines -/

theorem split_at_first {α : Type} (c : α) : ∀ (l₁ l₂ r₁ r₂ : List α),
    c ∉ l₁ → c ∉ l₂ → l₁ ++ c :: r₁ = l₂ ++ c :: r₂ → l₁ = l₂ ∧ r₁ = r₂
  | [], [], _, _, _, _, h => ⟨rfl, by simpa using h⟩
  | [], y :: l₂, _, _, _, h2, h => by
    have : c = y := by simpa using (List.cons.inj h).1
    exact absurd (this ▸ List.mem_cons_self _ _) h2
  | x :: l₁, [], _, _, h1, _, h => by
    have : x = c := by simpa using (List.cons.inj h).1
    exact absurd (this ▸ List.mem_cons_self _ _) h1
  | x :: l₁, y :: l₂, r₁, r₂, h1, h2, h => by
    have hxy : x = y := (List.cons.inj h).1
    have ht : l₁ ++ c :: r₁ = l₂ ++ c :: r₂ := (List.cons.inj h).2
    have := split_at_first c l₁ l₂ r₁ r₂
      (fun hc => h1 (List.mem_cons_of_mem _ hc)) (fun hc => h2 (List.mem_cons_of_mem _ hc)) ht
    exact ⟨by rw [hxy, this.1], this.2⟩

theorem toLower_sig_data (lower : Char → Char) (m r : String) :
    (toLower lower (m ++ "(" ++ r ++ ")")).data =
      (toLower lower m).data ++ lower '(' :: ((toLower lower r).data ++ [lower ')']) := by
  simp [toLower, String.data_append]

/-- C10, counterexample. The calls `eth_getBlockByNumber` with params
`["0x1", false]` and with params `["0x1 false"]` have the same fingerprint, but
their params arrays have different lengths and only the first is cacheable. -/
theorem fingerprint_collision_counterexample :
    (NewRequest Char.toLower
        [("id", .num "1"), ("method", .str "eth_getBlockByNumber"),
          ("params", .arr [.str "0x1", .bool false])]).sig =
      (NewRequest Char.toLower
        [("id", .num "2"), ("method", .str "eth_getBlockByNumber"),
          ("params", .arr [.str "0x1 false"])]).sig ∧
    (NewRequest Char.toLower
        [("id", .num "1"), ("method", .str "eth_getBlockByNumber"),
          ("params", .arr [.str "0x1", .bool false])]).Cachable = true ∧
    (NewRequest Char.toLower
        [("id", .num "2"), ("method", .str "eth_getBlockByNumber"),
          ("params", .arr [.str "0x1 false"])]).Cachable = false := by
  decide

/-- C10, amended. When no rune other than `(` lower-cases to `(` and neither
method contains `(`, two raw requests with the same fingerprint have the same
lower-cased method and the same lower-cased rendering `fmtV` of their params.
The structure of the params and the result of `Cachable` are not determined. -/
theorem fingerprint_determines (lower : Char → Char) (a b : RawRequest)
    (hl : ∀ c, lower c = '(' ↔ c = '(')
    (ha : '(' ∉ (methodOf a).data) (hb : '(' ∉ (methodOf b).data)
    (h : (NewRequest lower a).sig = (NewRequest lower b).sig) :
    (NewRequest lower a).method = (NewRequest lower b).method ∧
    toLower lower (fmtV (paramsOf a)) = toLower lower (fmtV (paramsOf b)) := by
  have hd := congrArg String.data h
  simp only [NewRequest] at hd ⊢
  rw [toLower_sig_data, toLower_sig_data, (hl '(').2 rfl] at hd
  have hna : '(' ∉ (toLower lower (methodOf a)).data := by
    simp only [toLower, List.mem_map, not_exists, not_and]
    intro c hc hlc
    rw [(hl c).1 hlc] at hc
    exact ha hc
  have hnb : '(' ∉ (toLower lower (methodOf b)).data := by
    simp only [toLower, List.mem_map, not_exists, not_and]
    intro c hc hlc
    rw [(hl c).1 hlc] at hc
    exact hb hc
  obtain ⟨h1, h2⟩ := split_at_first '(' _ _ _ _ hna hnb hd
  exact ⟨String.ext h1, String.ext (List.append_cancel_right h2)⟩

theorem asciiLower_paren (c : Char) : Char.toLower c = '(' ↔ c = '(' := by
  constructor
  · intro h
    unfold Char.toLower at h
    by_cases hc : c.toNat ≥ 65 ∧ c.toNat ≤ 90
    · simp only [hc, and_self, if_true] at h
      exfalso
      have hv : (c.toNat + 32).isValidChar := Or.inl (by omega)
      have h1 : (Char.ofNat (c.toNat + 32)).toNat = c.toNat + 32 := by
        simp only [Char.ofNat, hv, dite_true]
        rfl
      rw [h] at h1
      have h3 : '('.toNat = 40 := by decide
      omega
    · simp only [hc, if_false] at h
      exact h
  · intro h; subst h; decide

/-- Witness of C10: the same call written in two letter cases. -/
theorem fingerprint_determines_witness :
    (NewRequest Char.toLower
        [("id", .num "1"), ("method", .str "eth_getBalance"),
          ("params", .arr [.str "0xAB", .str "latest"])]).method =
      (NewRequest Char.toLower
        [("id", .num "2"), ("method", .str "ETH_GETBALANCE"),
          ("params", .arr [.str "0xab", .str "LATEST"])]).method ∧
    toLower Char.toLower (fmtV (paramsOf
        [("id", .num "1"), ("method", .str "eth_getBalance"),
          ("params", .arr [.str "0xAB", .str "latest"])])) =
      toLower Char.toLower (fmtV (paramsOf
        [("id", .num "2"), ("method", .str "ETH_GETBALANCE"),
          ("params", .arr [.str "0xab", .str "LATEST"])])) :=
  fingerprint_determines Char.toLower
    [("id", .num "1"), ("method", .str "eth_getBalance"),
      ("params", .arr [.str "0xAB", .str "latest"])]
    [("id", .num "2"), ("method", .str "ETH_GETBALANCE"),
      ("params", .arr [.str "0xab", .str "LATEST"])]
    asciiLower_paren (by decide) (by decide) (by decide)


/-! ## The dispatcher: what is read from and written to the cache -/

mutual
theorem Json.beq_sound : ∀ (a b : Json), Json.beq a b = true → a = b
  | .null, .null, _ => rfl
  | .bool x, .bool y, h => by simp only [Json.beq, beq_iff_eq] at h; rw [h]
  | .num x, .num y, h => by simp only [Json.beq, beq_iff_eq] at h; rw [h]
  | .str x, .str y, h => by simp only [Json.beq, beq_iff_eq] at h; rw [h]
  | .arr xs, .arr ys, h => by
    simp only [Json.beq] at h; rw [Json.beqList_sound xs ys h]
  | .obj fs, .obj gs, h => by
    simp only [Json.beq] at h; rw [Json.beqFields_sound fs gs h]
  | .null, .bool _, h | .null, .num _, h | .null, .str _, h | .null, .arr _, h
  | .null, .obj _, h => by simp [Json.beq] at h
  | .bool _, .null, h | .bool _, .num _, h | .bool _, .str _, h | .bool _, .arr _, h
  | .bool _, .obj _, h => by simp [Json.beq] at h
  | .num _, .null, h | .num _, .bool _, h | .num _, .str _, h | .num _, .arr _, h
  | .num _, .obj _, h => by simp [Json.beq] at h
  | .str _, .null, h | .str _, .bool _, h | .str _, .num _, h | .str _, .arr _, h
  | .str _, .obj _, h => by simp [Json.beq] at h
  | .arr _, .null, h | .arr _, .bool _, h | .arr _, .num _, h | .arr _, .str _, h
  | .arr _, .obj _, h => by simp [Json.beq] at h
  | .obj _, .null, h | .obj _, .bool _, h | .obj _, .num _, h | .obj _, .str _, h
  | .obj _, .arr _, h => by simp [Json.beq] at h
theorem Json.beqList_sound : ∀ (xs ys : List Json), Json.beqList xs ys = true → xs = ys
  | [], [], _ => rfl
  | [], _ :: _, h => by simp [Json.beqList] at h
  | _ :: _, [], h => by simp [Json.beqList] at h
  | x :: xs, y :: ys, h => by
    simp only [Json.beqList, Bool.and_eq_true] at h
    rw [Json.beq_sound x y h.1, Json.beqList_sound xs ys h.2]
theorem Json.beqFields_sound : ∀ (fs gs : List (String × Json)),
    Json.beqFields fs gs = true → fs = gs
  | [], [], _ => rfl
  | [], _ :: _, h => by simp [Json.beqFields] at h
  | _ :: _, [], h => by simp [Json.beqFields] at h
  | (k, v) :: fs, (l, w) :: gs, h => by
    simp only [Json.beqFields, Bool.and_eq_true, beq_iff_eq] at h
    rw [h.1.1, Json.beq_sound v w h.1.2, Json.beqFields_sound fs gs h.2]
end

theorem mem_mapSet {κ ν : Type} [BEq κ] : ∀ (m : List (κ × ν)) (k : κ) (v : ν) (p : κ × ν),
    p ∈ mapSet m k v → p = (k, v) ∨ p ∈ m
  | [], k, v, p, h => by simp [mapSet] at h; exact Or.inl h
  | (k', v') :: rest, k, v, p, h => by
    simp only [mapSet] at h
    split at h
    · rcases List.mem_cons.1 h with h | h
      · exact Or.inl h
      · exact Or.inr (List.mem_cons_of_mem _ h)
    · rcases List.mem_cons.1 h with h | h
      · exact Or.inr (h ▸ List.mem_cons_self _ _)
      · rcases mem_mapSet rest k v p h with h | h
        · exact Or.inl h
        · exact Or.inr (List.mem_cons_of_mem _ h)

theorem id2key_lookup_mem : ∀ (m : List (Json × String)) (id : Json) (k : String),
    m.lookup id = some k → (id, k) ∈ m
  | [], _, _, h => by simp at h
  | (id', k') :: rest, id, k, h => by
    rw [List.lookup_cons] at h
    cases hb : (id == id') with
    | true =>
      rw [hb] at h
      have hk : k' = k := by simpa using h
      have hid : id = id' := Json.beq_sound id id' hb
      rw [hid, hk]; exact List.mem_cons_self _ _
    | false =>
      rw [hb] at h
      exact List.mem_cons_of_mem _ (id2key_lookup_mem rest id k h)

theorem classifyStep_inv (wm : String → String → Bool) (c : Cache) (reqs : List Request)
    (E : Prop) (hE : c.DB.isSome = true → E) (st : Classified) (q : Request) (hq : q ∈ reqs)
    (hg : ∀ k ∈ st.gets, ∃ q' ∈ reqs, q'.method ≠ "" ∧ q'.Cachable = true ∧ q'.sig = k ∧
      E)
    (hi : ∀ p ∈ st.id2key, ∃ q' ∈ reqs, q'.method ≠ "" ∧ q'.Cachable = true ∧
      q'.sig = p.2 ∧ q'.raw.lookup "id" = some p.1 ∧ E) :
    (∀ k ∈ (classifyStep wm c st q).1.gets,
      ∃ q' ∈ reqs, q'.method ≠ "" ∧ q'.Cachable = true ∧ q'.sig = k ∧
      E) ∧
    (∀ p ∈ (classifyStep wm c st q).1.id2key, ∃ q' ∈ reqs, q'.method ≠ "" ∧
      q'.Cachable = true ∧ q'.sig = p.2 ∧ q'.raw.lookup "id" = some p.1 ∧ E) := by
  unfold classifyStep
  by_cases hm : q.method = ""
  · simp only [hm, if_true]; exact ⟨hg, hi⟩
  · simp only [hm, if_false]
    cases hdb : c.DB with
    | none => exact ⟨hg, hi⟩
    | some db =>
      by_cases hc : q.Cachable = true
      · have hg' : ∀ k ∈ st.gets ++ [q.sig],
            ∃ q' ∈ reqs, q'.method ≠ "" ∧ q'.Cachable = true ∧ q'.sig = k ∧
              E := by
          intro k hk
          rcases List.mem_append.1 hk with hk | hk
          · exact hg k hk
          · have : k = q.sig := by simpa using hk
            exact ⟨q, hq, hm, hc, this.symm, hE (by rw [hdb]; rfl)⟩
        simp only [hc, if_true]
        cases hget : Cache.Get db q.sig with
        | some resp => exact ⟨hg', hi⟩
        | none =>
          cases hid : q.raw.lookup "id" with
          | none => exact ⟨hg', hi⟩
          | some id =>
            by_cases hh : id.hashable = true
            · simp only [Option.isSome_some, Option.getD_some, hh, if_true]
              refine ⟨hg', ?_⟩
              intro p hp
              rcases mem_mapSet _ _ _ _ hp with hp | hp
              · rw [hp]; exact ⟨q, hq, hm, hc, rfl, hid, hE (by rw [hdb]; rfl)⟩
              · exact hi p hp
            · simp only [Option.isSome_some, Option.getD_some, hh, if_true]
              exact ⟨hg', hi⟩
      · simp only [hc]; exact ⟨hg, hi⟩

theorem classify_inv (wm : String → String → Bool) (c : Cache) (reqs : List Request)
    (E : Prop) (hE : c.DB.isSome = true → E) :
    ∀ (qs : List Request) (st : Classified), (∀ q ∈ qs, q ∈ reqs) →
    (∀ k ∈ st.gets, ∃ q' ∈ reqs, q'.method ≠ "" ∧ q'.Cachable = true ∧ q'.sig = k ∧
      E) →
    (∀ p ∈ st.id2key, ∃ q' ∈ reqs, q'.method ≠ "" ∧ q'.Cachable = true ∧
      q'.sig = p.2 ∧ q'.raw.lookup "id" = some p.1 ∧ E) →
    (∀ k ∈ (classify wm c qs st).1.gets,
      ∃ q' ∈ reqs, q'.method ≠ "" ∧ q'.Cachable = true ∧ q'.sig = k ∧
      E) ∧
    (∀ p ∈ (classify wm c qs st).1.id2key, ∃ q' ∈ reqs, q'.method ≠ "" ∧
      q'.Cachable = true ∧ q'.sig = p.2 ∧ q'.raw.lookup "id" = some p.1 ∧ E)
  | [], st, _, hg, hi => ⟨hg, hi⟩
  | q :: qs, st, hqs, hg, hi => by
    have hstep := classifyStep_inv wm c reqs E hE st q (hqs q (List.mem_cons_self _ _)) hg hi
    simp only [classify]
    split
    · exact hstep
    · exact classify_inv wm c reqs E hE qs _ (fun q' hq' => hqs q' (List.mem_cons_of_mem _ hq'))
        hstep.1 hstep.2

theorem writeBackStep_inv (id2key : List (Json × String)) (fw : List Response)
    (kv kv' : List (String × Json)) (resp : Response) (hr : resp ∈ fw)
    (h : writeBackStep id2key kv resp = some kv')
    (hkv : ∀ p ∈ kv, ∃ r id, r ∈ fw ∧ p.2 = .obj r ∧ r.lookup "id" = some id ∧
      r.lookup "error" = none ∧ id2key.lookup id = some p.1) :
    ∀ p ∈ kv', ∃ r id, r ∈ fw ∧ p.2 = .obj r ∧ r.lookup "id" = some id ∧
      r.lookup "error" = none ∧ id2key.lookup id = some p.1 := by
  unfold writeBackStep at h
  cases hid : resp.lookup "id" with
  | none =>
    rw [hid] at h
    have : kv = kv' := by simpa using h
    rw [← this]; exact hkv
  | some id =>
    rw [hid] at h
    simp only at h
    cases he : resp.lookup "error" with
    | some e =>
      rw [he] at h
      have : kv = kv' := by simpa using h
      rw [← this]; exact hkv
    | none =>
      rw [he] at h
      simp only [Option.isSome_none, Bool.false_eq_true, if_false] at h
      by_cases hh : id.hashable = true
      · simp only [hh, if_true] at h
        cases hl : id2key.lookup id with
        | none =>
          rw [hl] at h
          have : kv = kv' := by simpa using h
          rw [← this]; exact hkv
        | some key =>
          rw [hl] at h
          simp only [Option.getD_some] at h
          by_cases hk : key = ""
          · simp only [hk, ne_eq, not_true_eq_false, if_false] at h
            have : kv = kv' := by simpa using h
            rw [← this]; exact hkv
          · simp only [ne_eq, hk, not_false_eq_true, if_true] at h
            have : mapSet kv key (.obj resp) = kv' := by simpa using h
            rw [← this]
            intro p hp
            rcases mem_mapSet _ _ _ _ hp with hp | hp
            · rw [hp]; exact ⟨resp, id, hr, rfl, hid, he, hl⟩
            · exact hkv p hp
      · simp only [hh] at h
        exact absurd h (by simp)

theorem writeBack_inv (id2key : List (Json × String)) (fw : List Response) :
    ∀ (rest : List Response) (kv kv' : List (String × Json)), (∀ r ∈ rest, r ∈ fw) →
    writeBack id2key rest kv = some kv' →
    (∀ p ∈ kv, ∃ r id, r ∈ fw ∧ p.2 = .obj r ∧ r.lookup "id" = some id ∧
      r.lookup "error" = none ∧ id2key.lookup id = some p.1) →
    ∀ p ∈ kv', ∃ r id, r ∈ fw ∧ p.2 = .obj r ∧ r.lookup "id" = some id ∧
      r.lookup "error" = none ∧ id2key.lookup id = some p.1
  | [], kv, kv', _, h, hkv => by
    have : kv = kv' := by simpa [writeBack] using h
    rw [← this]; exact hkv
  | resp :: rest, kv, kv', hsub, h, hkv => by
    simp only [writeBack] at h
    cases hs : writeBackStep id2key kv resp with
    | none => rw [hs] at h; exact absurd h (by simp)
    | some kv1 =>
      rw [hs] at h
      exact writeBack_inv id2key fw rest kv1 kv'
        (fun r hr => hsub r (List.mem_cons_of_mem _ hr)) h
        (writeBackStep_inv id2key fw kv kv1 resp (hsub resp (List.mem_cons_self _ _)) hs hkv)

theorem dispatch_spec (wm : String → String → Bool) (client : Client) (sched : Sched)
    (c : Cache) (reqs : List Request) (batch : Bool) :
    (∀ k ∈ (dispatch wm client sched c reqs batch).gets,
      ∃ q ∈ reqs, q.method ≠ "" ∧ q.Cachable = true ∧ q.sig = k ∧ c.DB.isSome = true) ∧
    (∀ p ∈ (dispatch wm client sched c reqs batch).id2key, ∃ q ∈ reqs, q.method ≠ "" ∧
      q.Cachable = true ∧ q.sig = p.2 ∧ q.raw.lookup "id" = some p.1 ∧
      c.DB.isSome = true) ∧
    (∀ kv, (dispatch wm client sched c reqs batch).setMany = some kv →
      (dispatch wm client sched c reqs batch).errors = [] ∧
      ∀ p ∈ kv, ∃ r id, r ∈ (dispatch wm client sched c reqs batch).fresh ∧ p.2 = .obj r ∧
        r.lookup "id" = some id ∧ r.lookup "error" = none ∧
        (dispatch wm client sched c reqs batch).id2key.lookup id = some p.1) := by
  have hcl := classify_inv wm c reqs (c.DB.isSome = true) id reqs
    { resps := [], forward := [], id2key := [], gets := [] } (fun q hq => hq)
    (by intro k hk; simp at hk) (by intro p hp; simp at hp)
  unfold dispatch
  simp only
  split
  · exact ⟨hcl.1, hcl.2, by intro kv h; simp at h⟩
  · split
    · exact ⟨hcl.1, hcl.2, by intro kv h; simp at h⟩
    · split
      · exact ⟨hcl.1, hcl.2, by intro kv h; simp at h⟩
      · rename_i errs fw hfan
        split
        · exact ⟨hcl.1, hcl.2, by intro kv h; simp at h⟩
        · rename_i herrs
          split
          · exact ⟨hcl.1, hcl.2, by intro kv h; simp at h⟩
          · rename_i kv0 hwb
            refine ⟨hcl.1, hcl.2, ?_⟩
            intro kv h
            simp only at h
            have he : errs = [] := by
              cases errs with
              | nil => rfl
              | cons e es => simp at herrs
            refine ⟨he, ?_⟩
            by_cases hk : kv0.isEmpty = true
            · simp [hk] at h
            · simp only [hk] at h
              have : kv0 = kv := by simpa using h
              rw [← this]
              exact writeBack_inv _ fw fw [] kv0 (fun r hr => hr) hwb
                (by intro p hp; simp at hp)

theorem handleRequest_cases (lower : Char → Char) (wm : String → String → Bool)
    (client : Client) (sched : Sched) (c : Cache) (isPost : Bool) (ct : String)
    (dec : Except String Json) :
    (∃ r, handleRequest lower wm client sched c isPost ct dec = Exchange.early r) ∨
    (∃ reqs batch, decodeRequests lower dec = .ok (reqs, batch) ∧
      handleRequest lower wm client sched c isPost ct dec =
        dispatch wm client sched c reqs batch) := by
  unfold handleRequest
  split
  · exact Or.inl ⟨_, rfl⟩
  · split
    · exact Or.inl ⟨_, rfl⟩
    · split
      · exact Or.inl ⟨_, rfl⟩
      · split
        · exact Or.inl ⟨_, rfl⟩
        · rename_i reqs batch heq
          exact Or.inr ⟨reqs, batch, heq, rfl⟩

/-- C1, the code at scenario 1. After the request of scenario 1 is answered by
the backend, the batch passed to `SetMany` holds, under the key
`eth_blocknumber([])`, the response with its `id` field still in it. -/
theorem writeBack_keeps_id :
    (handleRequest Char.toLower noWildcard scenarioClient id scenarioCache true
        "application/json" (.ok scenarioRequest)).setMany =
      some [("eth_blocknumber([])",
        .obj [("jsonrpc", .str "2.0"), ("id", .num "1"), ("result", .str "0x10")])] :=
  rfl

/-- C3, the code at an empty batch. For a body that decodes as the empty array,
and for one that decodes as an array without object elements, `handleRequest`
sends the body `null`, not an array. -/
theorem empty_batch_reply_null (lower : Char → Char) (wm : String → String → Bool)
    (client : Client) (sched : Sched) (c : Cache) :
    (handleRequest lower wm client sched c true "application/json" (.ok (.arr []))).reply =
      .success .null ∧
    (handleRequest lower wm client sched c true "application/json"
      (.ok (.arr [.num "1", .str "x"]))).reply = .success .null :=
  ⟨rfl, rfl⟩

/-- C6, counterexample. In the exchange for `collisionBatch` the second request
is not cacheable, and yet its fingerprint is passed to `Get` and is the key of
the batch passed to `SetMany`: it is also the fingerprint of the first request. -/
theorem noncacheable_key_counterexample :
    decodeRequests Char.toLower (.ok collisionBatch) =
      .ok ([NewRequest Char.toLower [("id", .num "1"), ("method", .str "eth_getBlockByNumber"),
          ("params", .arr [.str "0x1", .bool false])],
        NewRequest Char.toLower [("id", .num "2"), ("method", .str "eth_getBlockByNumber"),
          ("params", .arr [.str "0x1 false"])]], true) ∧
    (NewRequest Char.toLower [("id", .num "2"), ("method", .str "eth_getBlockByNumber"),
      ("params", .arr [.str "0x1 false"])]).Cachable = false ∧
    (handleRequest Char.toLower noWildcard collisionClient id scenarioCache true
        "application/json" (.ok collisionBatch)).gets =
      [(NewRequest Char.toLower [("id", .num "2"), ("method", .str "eth_getBlockByNumber"),
        ("params", .arr [.str "0x1 false"])]).sig] ∧
    (handleRequest Char.toLower noWildcard collisionClient id scenarioCache true
        "application/json" (.ok collisionBatch)).setMany =
      some [((NewRequest Char.toLower [("id", .num "2"),
          ("method", .str "eth_getBlockByNumber"), ("params", .arr [.str "0x1 false"])]).sig,
        .obj [("id", .num "1"), ("result", .str "0xaa")])] :=
  ⟨rfl, rfl, rfl, rfl⟩

theorem handleRequest_early_or_dispatch (lower : Char → Char) (wm : String → String → Bool)
    (client : Client) (sched : Sched) (c : Cache) (isPost : Bool) (ct : String)
    (dec : Except String Json) :
    (∃ msg status, handleRequest lower wm client sched c isPost ct dec =
      Exchange.early (.error msg status)) ∨
    (∃ reqs batch, decodeRequests lower dec = .ok (reqs, batch) ∧
      handleRequest lower wm client sched c isPost ct dec =
        dispatch wm client sched c reqs batch) := by
  unfold handleRequest
  split
  · exact Or.inl ⟨_, _, rfl⟩
  · split
    · exact Or.inl ⟨_, _, rfl⟩
    · split
      · exact Or.inl ⟨_, _, rfl⟩
      · split
        · exact Or.inl ⟨_, _, rfl⟩
        · rename_i reqs batch heq
          exact Or.inr ⟨reqs, batch, heq, rfl⟩

theorem classifyStep_gets (wm : String → String → Bool) (c : Cache) (st : Classified)
    (q : Request) :
    (classifyStep wm c st q).1.gets =
      st.gets ++ ([q].filter
        (fun r => c.DB.isSome && (r.method != "") && r.Cachable)).map Request.sig := by
  unfold classifyStep
  by_cases hm : q.method = ""
  · simp [hm]
  · cases hdb : c.DB with
    | none => simp [hm, enqueue]
    | some db =>
      by_cases hc : q.Cachable = true
      · simp only [hm, hc, if_true, if_false]
        cases Cache.Get db q.sig with
        | some resp => simp [hm, hc]
        | none =>
          cases hid : q.raw.lookup "id" with
          | none => simp [hm, hc, enqueue]
          | some id =>
            by_cases hh : id.hashable = true
            · simp [hm, hc, hh, enqueue]
            · simp [hm, hc, hh]
      · simp [hm, hc, enqueue]

theorem classify_gets (wm : String → String → Bool) (c : Cache) :
    ∀ (qs : List Request) (st : Classified),
    (classify wm c qs st).1.gets <+: st.gets ++ (qs.filter
      (fun r => c.DB.isSome && (r.method != "") && r.Cachable)).map Request.sig ∧
    ((classify wm c qs st).2 = false → (classify wm c qs st).1.gets =
      st.gets ++ (qs.filter
        (fun r => c.DB.isSome && (r.method != "") && r.Cachable)).map Request.sig)
  | [], st => by simp [classify]
  | q :: qs, st => by
    have hstep := classifyStep_gets wm c st q
    have hsplit : ((q :: qs).filter
        (fun r => c.DB.isSome && (r.method != "") && r.Cachable)).map Request.sig =
        ([q].filter (fun r => c.DB.isSome && (r.method != "") && r.Cachable)).map Request.sig ++
        (qs.filter (fun r => c.DB.isSome && (r.method != "") && r.Cachable)).map Request.sig := by
      rw [← List.map_append, ← List.filter_append]; rfl
    simp only [classify]
    by_cases hp : (classifyStep wm c st q).2 = true
    · rw [if_pos hp]
      refine ⟨?_, fun h => ?_⟩
      · rw [hsplit, ← List.append_assoc, ← hstep]
        exact List.prefix_append _ _
      · exact absurd h (by simp)
    · rw [if_neg hp]
      have ih := classify_gets wm c qs (classifyStep wm c st q).1
      rw [hstep, List.append_assoc, ← hsplit] at ih
      exact ih

theorem classifyStep_noncacheable (wm : String → String → Bool) (c : Cache) (st : Classified)
    (q : Request) (hq : q.Cachable = false) :
    (classifyStep wm c st q).2 = false ∧
    (classifyStep wm c st q).1.gets = st.gets ∧
    (classifyStep wm c st q).1.id2key = st.id2key ∧
    (q.method ≠ "" → (classifyStep wm c st q).1.resps = st.resps ∧
      (classifyStep wm c st q).1.forward =
        mapAppend st.forward (selectRoute wm c.Routes q) q) := by
  unfold classifyStep
  by_cases hm : q.method = ""
  · simp [hm]
  · cases hdb : c.DB with
    | none => simp [hm, enqueue]
    | some db => simp [hm, hq, enqueue]

theorem dispatch_gets (wm : String → String → Bool) (client : Client) (sched : Sched)
    (c : Cache) (reqs : List Request) (batch : Bool) :
    (dispatch wm client sched c reqs batch).gets <+: (reqs.filter
      (fun r => c.DB.isSome && (r.method != "") && r.Cachable)).map Request.sig ∧
    ((dispatch wm client sched c reqs batch).reply ≠ .crash →
      (dispatch wm client sched c reqs batch).gets = (reqs.filter
        (fun r => c.DB.isSome && (r.method != "") && r.Cachable)).map Request.sig) := by
  have hcl := classify_gets wm c reqs { resps := [], forward := [], id2key := [], gets := [] }
  simp only [List.nil_append] at hcl
  unfold dispatch
  simp only
  split
  · exact ⟨hcl.1, fun h => absurd rfl h⟩
  · rename_i hnp
    have hfull := hcl.2 (by simpa using hnp)
    split
    · exact ⟨hcl.1, fun _ => hfull⟩
    · split
      · exact ⟨hcl.1, fun _ => hfull⟩
      · split
        · exact ⟨hcl.1, fun _ => hfull⟩
        · split
          · exact ⟨hcl.1, fun _ => hfull⟩
          · exact ⟨hcl.1, fun _ => hfull⟩

/-- C6, amended. For an exchange whose body decodes to the requests `reqs`:
the keys passed to `Get`, in order, are the fingerprints of the requests with a
non-empty method and `Cachable()` true, one call for each such request in request
order (an initial part of them, all of them when a body is sent, none when the
cache is disabled); one pass of the classification loop over a request that is
not cacheable calls no `Get`, records nothing in `id2key`, does not panic and
sends the request to route selection; every entry of the batch passed to
`SetMany` is keyed by the fingerprint of a cacheable request and holds a response
whose id is the id of that request; so the fingerprint of a request that is not
cacheable is passed to `Get` or `SetMany` only when a cacheable request of the
exchange has the same fingerprint. -/
theorem noncacheable_bypass (lower : Char → Char) (wm : String → String → Bool)
    (client : Client) (sched : Sched) (c : Cache) (isPost : Bool) (ct : String)
    (dec : Except String Json) (reqs : List Request) (batch : Bool)
    (hd : decodeRequests lower dec = .ok (reqs, batch)) :
    ((handleRequest lower wm client sched c isPost ct dec).gets <+: (reqs.filter
      (fun r => c.DB.isSome && (r.method != "") && r.Cachable)).map Request.sig) ∧
    (∀ body, (handleRequest lower wm client sched c isPost ct dec).reply = .success body →
      (handleRequest lower wm client sched c isPost ct dec).gets = (reqs.filter
        (fun r => c.DB.isSome && (r.method != "") && r.Cachable)).map Request.sig) ∧
    (∀ st q, q.Cachable = false →
      (classifyStep wm c st q).2 = false ∧
      (classifyStep wm c st q).1.gets = st.gets ∧
      (classifyStep wm c st q).1.id2key = st.id2key ∧
      (q.method ≠ "" → (classifyStep wm c st q).1.resps = st.resps ∧
        (classifyStep wm c st q).1.forward =
          mapAppend st.forward (selectRoute wm c.Routes q) q)) ∧
    (∀ kv k v, (handleRequest lower wm client sched c isPost ct dec).setMany = some kv →
      (k, v) ∈ kv → c.DB.isSome = true ∧
      ∃ resp id q, v = .obj resp ∧ resp.lookup "id" = some id ∧ q ∈ reqs ∧
        q.method ≠ "" ∧ q.Cachable = true ∧ q.raw.lookup "id" = some id ∧ q.sig = k) ∧
    (∀ q ∈ reqs, q.Cachable = false →
      (∀ q' ∈ reqs, q'.method ≠ "" → q'.Cachable = true → q'.sig ≠ q.sig) →
      q.sig ∉ (handleRequest lower wm client sched c isPost ct dec).gets ∧
      ∀ kv v, (handleRequest lower wm client sched c isPost ct dec).setMany = some kv →
        (q.sig, v) ∉ kv) := by
  have hcases : (∃ msg status, handleRequest lower wm client sched c isPost ct dec =
        Exchange.early (.error msg status)) ∨
      handleRequest lower wm client sched c isPost ct dec =
        dispatch wm client sched c reqs batch := by
    rcases handleRequest_early_or_dispatch lower wm client sched c isPost ct dec with
      h | ⟨reqs', batch', hd', hr⟩
    · exact Or.inl h
    · rw [hd] at hd'
      obtain ⟨h1, h2⟩ := Prod.mk.inj (Except.ok.inj hd')
      rw [← h1, ← h2] at hr
      exact Or.inr hr
  have hwrite : ∀ kv k v,
      (handleRequest lower wm client sched c isPost ct dec).setMany = some kv →
      (k, v) ∈ kv → c.DB.isSome = true ∧
      ∃ resp id q, v = .obj resp ∧ resp.lookup "id" = some id ∧ q ∈ reqs ∧
        q.method ≠ "" ∧ q.Cachable = true ∧ q.raw.lookup "id" = some id ∧ q.sig = k := by
    intro kv k v hs hm
    rcases hcases with ⟨msg, status, hr⟩ | hr
    · rw [hr] at hs; simp [Exchange.early] at hs
    · rw [hr] at hs
      obtain ⟨_, hi, hsp⟩ := dispatch_spec wm client sched c reqs batch
      obtain ⟨r, id, _, h2, h3, _, h5⟩ := (hsp kv hs).2 (k, v) hm
      obtain ⟨q, hq, h6, h7, h8, h9, h10⟩ := hi (id, k) (id2key_lookup_mem _ _ _ h5)
      exact ⟨h10, r, id, q, h2, h3, hq, h6, h7, h9, h8⟩
  have hpre : (handleRequest lower wm client sched c isPost ct dec).gets <+: (reqs.filter
      (fun r => c.DB.isSome && (r.method != "") && r.Cachable)).map Request.sig := by
    rcases hcases with ⟨msg, status, hr⟩ | hr
    · rw [hr]; exact List.nil_prefix
    · rw [hr]; exact (dispatch_gets wm client sched c reqs batch).1
  refine ⟨hpre, ?_, fun st q hq => classifyStep_noncacheable wm c st q hq, hwrite, ?_⟩
  · intro body hb
    rcases hcases with ⟨msg, status, hr⟩ | hr
    · rw [hr] at hb
      simp [Exchange.early] at hb
    · rw [hr] at hb ⊢
      exact (dispatch_gets wm client sched c reqs batch).2 (by rw [hb]; intro h; cases h)
  · intro q _ _ hno
    refine ⟨fun hg => ?_, fun kv v hs hm => ?_⟩
    · have hmem := hpre.subset hg
      obtain ⟨q', hq', hsig⟩ := List.mem_map.1 hmem
      obtain ⟨hq'r, hP⟩ := List.mem_filter.1 hq'
      simp only [Bool.and_eq_true, bne_iff_ne, ne_eq] at hP
      exact hno q' hq'r hP.1.2 hP.2 hsig
    · obtain ⟨_, _, _, q', _, _, hq', h1, h2, _, h3⟩ := hwrite kv (q.sig) v hs hm
      exact hno q' hq' h1 h2 h3

/-- Witness of C6: in the exchange for `collisionBatch`, whose second request is
not cacheable, `Get` is called once, for the first request. -/
theorem noncacheable_bypass_witness :
    (handleRequest Char.toLower noWildcard collisionClient id scenarioCache true
        "application/json" (.ok collisionBatch)).gets = ["eth_getblockbynumber([0x1 false])"] :=
  ((noncacheable_bypass Char.toLower noWildcard collisionClient id scenarioCache true
    "application/json" (.ok collisionBatch)
    [NewRequest Char.toLower [("id", .num "1"), ("method", .str "eth_getBlockByNumber"),
        ("params", .arr [.str "0x1", .bool false])],
      NewRequest Char.toLower [("id", .num "2"), ("method", .str "eth_getBlockByNumber"),
        ("params", .arr [.str "0x1 false"])]] true rfl).2.1
    (.arr [.obj [("id", .num "1"), ("result", .str "0xaa")],
      .obj [("id", .num "2"), ("error", .str "invalid params")]]) rfl).trans (by decide)

/-- C9. Every entry `(k, v)` of the batch that the write-back passes to `SetMany`
is the marshalled form of a response of `fwresps` that has an `id` field and no
`error` field, and `k` is what `id2key` holds for that id: the fingerprint of a
request of the exchange with that id.  Then no route has failed. -/
theorem writeBack_sound (lower : Char → Char) (wm : String → String → Bool)
    (client : Client) (sched : Sched) (c : Cache) (isPost : Bool) (ct : String)
    (dec : Except String Json) (kv : List (String × Json)) (k : String) (v : Json)
    (hs : (handleRequest lower wm client sched c isPost ct dec).setMany = some kv)
    (hm : (k, v) ∈ kv) :
    (handleRequest lower wm client sched c isPost ct dec).errors = [] ∧
    ∃ resp id, resp ∈ (handleRequest lower wm client sched c isPost ct dec).fresh ∧
      v = .obj resp ∧ resp.lookup "id" = some id ∧ resp.lookup "error" = none ∧
      (handleRequest lower wm client sched c isPost ct dec).id2key.lookup id = some k ∧
      ∃ reqs batch q, decodeRequests lower dec = .ok (reqs, batch) ∧ q ∈ reqs ∧
        q.raw.lookup "id" = some id ∧ q.sig = k := by
  rcases handleRequest_cases lower wm client sched c isPost ct dec with ⟨r, hr⟩ | ⟨reqs, batch, hd, hr⟩
  · rw [hr] at hs
    simp [Exchange.early] at hs
  · rw [hr] at hs ⊢
    obtain ⟨_, hi, hsp⟩ := dispatch_spec wm client sched c reqs batch
    obtain ⟨he, hall⟩ := hsp kv hs
    obtain ⟨r, id, h1, h2, h3, h4, h5⟩ := hall (k, v) hm
    obtain ⟨q, hq, _, _, h6, h7, _⟩ := hi (id, k) (id2key_lookup_mem _ _ _ h5)
    exact ⟨he, r, id, h1, h2, h3, h4, h5, reqs, batch, q, hd, hq, h7, h6⟩

/-- Witness of C9: the entry written in scenario 1. -/
theorem writeBack_sound_witness :
    (handleRequest Char.toLower noWildcard scenarioClient id scenarioCache true
        "application/json" (.ok scenarioRequest)).errors = [] ∧
    ∃ resp id', resp ∈ (handleRequest Char.toLower noWildcard scenarioClient id scenarioCache
        true "application/json" (.ok scenarioRequest)).fresh ∧
      Json.obj scenarioResponse = .obj resp ∧ resp.lookup "id" = some id' ∧
      resp.lookup "error" = none ∧
      (handleRequest Char.toLower noWildcard scenarioClient id scenarioCache true
        "application/json" (.ok scenarioRequest)).id2key.lookup id' =
          some "eth_blocknumber([])" ∧
      ∃ reqs batch q, decodeRequests Char.toLower (.ok scenarioRequest) = .ok (reqs, batch) ∧
        q ∈ reqs ∧ q.raw.lookup "id" = some id' ∧ q.sig = "eth_blocknumber([])" :=
  writeBack_sound Char.toLower noWildcard scenarioClient id scenarioCache true
    "application/json" (.ok scenarioRequest)
    [("eth_blocknumber([])", .obj scenarioResponse)] "eth_blocknumber([])"
    (.obj scenarioResponse) rfl (List.mem_singleton.2 rfl)

end Jrpcd
